import Mathlib

/-!
# gunit: the fixture's failure / output / recovery protocol

A shallow embedding of `gunit.go` (package `gunit`): the `Fixture` that buffers
the output of one test case, forwards failures to the host runner `TT`, and
reconciles both in `Finalize`.

Go strings and byte slices are sequences of bytes; a byte is a natural number
below 256.  The standard-library functions the fixture calls (`strings.TrimSpace`,
`strings.Join`, `fmt.Sprint`, `fmt.Sprintln`, `runtime.Stack`, the built-in
`recover`) are embedded next to it, after their documented behaviour.
-/

namespace Gunit

/-! ## Byte strings -/

/-- A Go `string` (or `[]byte`): a finite sequence of bytes. -/
abbrev Str := List Nat

/-- The bytes of an ASCII literal of the source, as `[]byte("...")` yields them. -/
def ascii (s : String) : Str := s.toList.map Char.toNat

/-! ## `unicode/utf8` -/

/-- The constant `utf8.RuneError`, U+FFFD. -/
def RuneError : Nat := 0xFFFD

/-- The constant `utf8.RuneSelf`: bytes below it are single-byte runes. -/
def RuneSelf : Nat := 0x80

/-- Continuation bytes: the range `locb..hicb` of `unicode/utf8`. -/
def isCont (b : Nat) : Bool := decide (0x80 ≤ b) && decide (b ≤ 0xBF)

/-- The function `utf8.RuneStart`: `b&0xC0 != 0x80`. -/
def RuneStart (b : Nat) : Bool := !isCont b

/-- The table `first` of `unicode/utf8` with its accept ranges, for the lead bytes
of multi-byte encodings: the size of the encoding and the range `lo..hi` accepted
for the second byte.  `none` for every other byte (ASCII, or the invalid `xx`). -/
def first (s0 : Nat) : Option (Nat × Nat × Nat) :=
  if s0 < 0xC2 then none
  else if s0 < 0xE0 then some (2, 0x80, 0xBF)
  else if s0 = 0xE0 then some (3, 0xA0, 0xBF)
  else if s0 = 0xED then some (3, 0x80, 0x9F)
  else if s0 < 0xF0 then some (3, 0x80, 0xBF)
  else if s0 = 0xF0 then some (4, 0x90, 0xBF)
  else if s0 < 0xF4 then some (4, 0x80, 0xBF)
  else if s0 = 0xF4 then some (4, 0x80, 0x8F)
  else none

/-- The checks of `utf8.DecodeRuneInString` on the bytes after the lead byte: the
second byte lies in the accept range, the later ones are continuation bytes. -/
def acceptTail (lo hi : Nat) : Str → Bool
  | [] => true
  | s1 :: more => decide (lo ≤ s1) && decide (s1 ≤ hi) && more.all isCont

/-- The rune of a multi-byte encoding of size `sz`: the low `7 - sz` bits of the
lead byte, then six bits of each later byte (the masks `mask2..mask4`, `maskx`). -/
def runeOf (sz s0 : Nat) (tail : Str) : Nat :=
  tail.foldl (fun acc c => acc * 64 + c % 64) (s0 % 2 ^ (7 - sz))

/-- The function `utf8.DecodeRuneInString`: the first rune of `s` and its width in
bytes; `(RuneError, 0)` on the empty string and `(RuneError, 1)` on an invalid or
truncated encoding. -/
def decodeRune : Str → Nat × Nat
  | [] => (RuneError, 0)
  | s0 :: rest =>
    if s0 < RuneSelf then (s0, 1)
    else
      match first s0 with
      | none => (RuneError, 1)
      | some (sz, lo, hi) =>
        if rest.length + 1 < sz then (RuneError, 1)
        else if acceptTail lo hi (rest.take (sz - 1)) then
          (runeOf sz s0 (rest.take (sz - 1)), sz)
        else (RuneError, 1)

/-- The last step of `utf8.DecodeLastRuneInString`: decode the candidate
`s[start:end]` and accept it only when it fills the slice (`start+size == end`). -/
def decodeCandidate (cand : Str) : Nat × Nat :=
  let (r, size) := decodeRune cand
  if size = cand.length then (r, size) else (RuneError, 1)

/-- The function `utf8.DecodeLastRuneInString`, on the reversed string
`b0 :: rest` (`b0` the last byte): an ASCII last byte is the rune; otherwise the
scan walks back over at most `UTFMax - 1` further bytes to the nearest rune start
and decodes forward from there. -/
def decodeLastRev : Str → Nat × Nat
  | [] => (RuneError, 0)
  | b0 :: rest =>
    if b0 < RuneSelf then (b0, 1)
    else
      match rest with
      | b1 :: rest1 =>
        if RuneStart b1 then decodeCandidate [b1, b0]
        else
          match rest1 with
          | b2 :: rest2 =>
            if RuneStart b2 then decodeCandidate [b2, b1, b0]
            else
              match rest2 with
              | b3 :: _ =>
                if RuneStart b3 then decodeCandidate [b3, b2, b1, b0]
                else (RuneError, 1)
              | [] => (RuneError, 1)
          | [] => (RuneError, 1)
      | [] => (RuneError, 1)

/-- The function `utf8.DecodeLastRuneInString`: the last rune of `s` and its width. -/
def decodeLastRune (s : Str) : Nat × Nat := decodeLastRev s.reverse

/-! ## `unicode` and `strings` -/

/-- The function `unicode.IsSpace`: the Latin-1 cases and the `White_Space` table. -/
def IsSpace (r : Nat) : Bool :=
  if r ≤ 0xFF then
    r = 0x09 ∨ r = 0x0A ∨ r = 0x0B ∨ r = 0x0C ∨ r = 0x0D ∨ r = 0x20 ∨ r = 0x85 ∨ r = 0xA0
  else
    r = 0x1680 ∨ (0x2000 ≤ r ∧ r ≤ 0x200A) ∨ r = 0x2028 ∨ r = 0x2029 ∨ r = 0x202F
      ∨ r = 0x205F ∨ r = 0x3000

/-- The loop of `strings.TrimLeftFunc` (`indexFunc`): drop leading runes while `f`
holds.  Each round drops at least one byte, so `len(s)` rounds always suffice
(`trimLeftLoop_fuel`). -/
def trimLeftLoop (f : Nat → Bool) : Nat → Str → Str
  | 0, s => s
  | _, [] => []
  | fuel + 1, b :: s =>
    if f (decodeRune (b :: s)).1 then trimLeftLoop f fuel ((b :: s).drop (decodeRune (b :: s)).2)
    else b :: s

/-- The function `strings.TrimLeftFunc`. -/
def TrimLeftFunc (s : Str) (f : Nat → Bool) : Str := trimLeftLoop f s.length s

/-- The loop of `strings.TrimRightFunc` (`lastIndexFunc`): walk back over the
trailing runes while `f` holds, and keep the string up to the end of the last rune
for which it does not. -/
def trimRightLoop (f : Nat → Bool) : Nat → Str → Str
  | 0, s => s
  | fuel + 1, s =>
    if s = [] then []
    else if f (decodeLastRune s).1 then
      trimRightLoop f fuel (s.take (s.length - (decodeLastRune s).2))
    else s

/-- The function `strings.TrimRightFunc`. -/
def TrimRightFunc (s : Str) (f : Nat → Bool) : Str := trimRightLoop f s.length s

/-- The function `strings.TrimFunc`. -/
def TrimFunc (s : Str) (f : Nat → Bool) : Str := TrimRightFunc (TrimLeftFunc s f) f

/-- The function `strings.TrimSpace`: `s` without its leading and trailing white
space, as defined by Unicode. -/
def TrimSpace (s : Str) : Str := TrimFunc s IsSpace

/-- The list `enc` is the complete, well-formed encoding of the rune `r`. -/
def IsEnc (enc : Str) (r : Nat) : Prop :=
  enc ≠ [] ∧ decodeRune enc = (r, enc.length) ∧ ¬ (r = RuneError ∧ enc.length = 1)

/-- The string begins with a well-formed rune that is not white space. -/
def SolidStart (t : Str) : Prop :=
  t ≠ [] ∧ ¬ ((decodeRune t).1 = RuneError ∧ (decodeRune t).2 = 1) ∧
    IsSpace (decodeRune t).1 = false

/-- The string ends with a well-formed rune that is not white space. -/
def SolidEnd (t : Str) : Prop :=
  t ≠ [] ∧ ¬ ((decodeLastRune t).1 = RuneError ∧ (decodeLastRune t).2 = 1) ∧
    IsSpace (decodeLastRune t).1 = false

instance SolidStart.decidable (t : Str) : Decidable (SolidStart t) := by
  unfold SolidStart
  infer_instance

instance SolidEnd.decidable (t : Str) : Decidable (SolidEnd t) := by
  unfold SolidEnd
  infer_instance

/-- The function `strings.Join`: the elements, with `sep` between them. -/
def Join : List Str → Str → Str
  | [], _ => []
  | [a], _ => a
  | a :: b :: rest, sep => a ++ sep ++ Join (b :: rest) sep

/-! ## `fmt`, `runtime` and the assertions library -/

/-- An operand of type `interface{}`: a string, or any other value, which is
represented by the text that the default format `%v` prints for it. -/
inductive Value where
  | str (s : Str)
  | other (rendered : Str)

/-- What `reflect.TypeOf(arg).Kind() == reflect.String` tests in `fmt`. -/
def Value.isString : Value → Bool
  | .str _ => true
  | .other _ => false

/-- The text `printArg(arg, 'v')` writes. -/
def Value.text : Value → Str
  | .str s => s
  | .other r => r

/-- The loop of `fmt.Sprint` (`doPrint`): a space goes between two operands when
neither is a string. -/
def doPrint : Nat → Bool → List Value → Str
  | _, _, [] => []
  | argNum, prevString, arg :: rest =>
    (if 0 < argNum ∧ arg.isString = false ∧ prevString = false then [32] else [])
      ++ arg.text ++ doPrint (argNum + 1) arg.isString rest

/-- The function `fmt.Sprint`. -/
def Sprint (a : List Value) : Str := doPrint 0 false a

/-- The loop of `fmt.Sprintln` (`doPrintln`): a space goes between operands always,
and a newline ends the text. -/
def doPrintln : Nat → List Value → Str
  | _, [] => [10]
  | argNum, arg :: rest =>
    (if 0 < argNum then [32] else []) ++ arg.text ++ doPrintln (argNum + 1) rest

/-- The function `fmt.Sprintln`. -/
def Sprintln (a : List Value) : Str := doPrintln 0 a

/-- The loop of `fmt.Sprintf` (`doPrintf`) on the directives `%%`, `%s` and `%v`
without flags, width or precision: literal bytes are copied, `%s` and `%v` print a
string operand, `%v` prints any operand, a directive without operand prints
`%!verb(MISSING)`, a lone final `%` prints `%!(NOVERB)`.  Formats and operands
beyond that (other verbs, flags, surplus operands) are `none`. -/
def doPrintf : Str → List Value → Option Str
  | [], [] => some []
  | [], _ :: _ => none
  | c :: rest, a =>
    if c ≠ 37 then (doPrintf rest a).map (fun out => c :: out)
    else
      match rest, a with
      | [], [] => some (ascii "%!(NOVERB)")
      | [], _ :: _ => none
      | v :: rest1, a =>
        if v = 37 then (doPrintf rest1 a).map (fun out => 37 :: out)
        else if v = 115 ∨ v = 118 then
          match a with
          | [] => (doPrintf rest1 []).map (fun out => ascii "%!" ++ [v] ++ ascii "(MISSING)" ++ out)
          | .str s :: a1 => (doPrintf rest1 a1).map (fun out => s ++ out)
          | .other r :: a1 =>
            if v = 118 then (doPrintf rest1 a1).map (fun out => r ++ out) else none
        else none

/-- The function `runtime.Stack(buf, false)`: writes the calling goroutine's stack
trace `trace` into `buf`, as much of it as fits, and returns the number of bytes
written. -/
def runtimeStack (buf : Str) (trace : Str) : Str × Nat :=
  let n := min buf.length trace.length
  (trace.take n ++ buf.drop n, n)

/-- The value given to `panic`: an interface value, which may be nil (`none`). -/
abbrev Payload := Option Value

/-- The built-in `recover()` in a deferred call, while `panicking` is the state of
the goroutine: `none` when it is not panicking, `some payload` when it unwinds with
the value `payload`.  It returns the value of the pending panic and stops the
panicking sequence; the value returned is nil when the goroutine is not panicking
and when the panic's value is nil (`panic(nil)`, as the language defines it up to
Go 1.20 and under `GODEBUG=panicnil=1` since; otherwise the runtime of Go 1.21
replaces a nil value by a `*runtime.PanicNilError` before unwinding, and the state
`some none` does not arise). -/
def goRecover (panicking : Option Payload) : Option Value × Option Payload :=
  match panicking with
  | none => (none, none)
  | some payload => (payload, none)

/-- The function `assertions.So` of github.com/smartystreets/assertions: runs the
comparison and reports success exactly when its failure text is empty. -/
def assertionsSo (actual : Value) (assert : Value → List Value → Str)
    (expected : List Value) : Bool × Str :=
  let result := assert actual expected
  if result.length = 0 then (true, result) else (false, result)

/-- What the fixture is linked against and `gunit.go` does not define:
`NewFailureReport` (of this package, in a file not at hand) and `fmt.Sprintf`
(whose full directive language is not embedded; `doPrintf` gives a fragment). -/
structure Env where
  NewFailureReport : Str → Str
  Sprintf : Str → List Value → Str

/-- An environment formats as `fmt.Sprintf` does wherever `doPrintf` embeds it. -/
def Env.FormatsLikeFmt (env : Env) : Prop :=
  ∀ format a out, doPrintf format a = some out → env.Sprintf format a = out

/-! ## The runner -/

/-- The runner behind the interface `TT`, after the test double `FakeTT`: the
fail flag, and the log with one record for each call of `Log`. -/
structure TT where
  log : List Str
  failed : Bool

/-- The method `Log`: one record, the text of the operands. -/
def TT.Log (self : TT) (args : List Value) : TT :=
  { self with log := self.log ++ [Sprint args] }

/-- The method `Fail`. -/
def TT.Fail (self : TT) : TT := { self with failed := true }

/-- The method `Failed`. -/
def TT.Failed (self : TT) : Bool := self.failed

/-! ## The fixture -/

/-- A Go `error` value; `none` of `Option GoError` is `nil`. -/
abbrev GoError := Str

/-- The method `(*bytes.Buffer).Write`: appends `p`; the count is `len(p)` and the
error is always nil. -/
def bytesBufferWrite (b : Str) (p : Str) : Str × Nat × Option GoError :=
  (b ++ p, p.length, none)

/-- The struct `Fixture`: the runner, the output buffer and the verbose flag. -/
structure Fixture where
  t : TT
  log : Str
  verbose : Bool

/-- The function `NewFixture`. -/
def NewFixture (t : TT) (verbose : Bool) : Fixture :=
  { t := t, verbose := verbose, log := [] }

/-- The method `Write` (io.Writer): `self.log.Write(p)`. -/
def Fixture.Write (self : Fixture) (p : Str) : Fixture × Nat × Option GoError :=
  let (log, n, err) := bytesBufferWrite self.log p
  ({ self with log := log }, n, err)

/-- The method `Print`: `fmt.Fprint(self, a...)`. -/
def Fixture.Print (self : Fixture) (a : List Value) : Fixture × Nat × Option GoError :=
  self.Write (Sprint a)

/-- The method `Printf`: `fmt.Fprintf(self, format, a...)`. -/
def Fixture.Printf (env : Env) (self : Fixture) (format : Str) (a : List Value) :
    Fixture × Nat × Option GoError :=
  self.Write (env.Sprintf format a)

/-- The method `Println`: `fmt.Fprintln(self, a...)`. -/
def Fixture.Println (self : Fixture) (a : List Value) : Fixture × Nat × Option GoError :=
  self.Write (Sprintln a)

/-- The method `reportFailure`: `self.Print(NewFailureReport(failure))`. -/
def Fixture.reportFailure (env : Env) (self : Fixture) (failure : Str) : Fixture :=
  (self.Print [Value.str (env.NewFailureReport failure)]).1

/-- The method `So`. -/
def Fixture.So (env : Env) (self : Fixture) (actual : Value)
    (assert : Value → List Value → Str) (expected : List Value) : Fixture × Bool :=
  let (ok, failure) := assertionsSo actual assert expected
  if !ok then
    (Fixture.reportFailure env { self with t := self.t.Fail } failure, ok)
  else (self, ok)

/-- The default message of `Ok`. -/
def okDefaultMessage : Str := ascii "Expected condition to be true, was false instead."

/-- The method `Ok`. -/
def Fixture.Ok (env : Env) (self : Fixture) (condition : Bool) (messages : List Str) :
    Fixture :=
  if !condition then
    let messages := if messages.length = 0 then messages ++ [okDefaultMessage] else messages
    Fixture.reportFailure env { self with t := self.t.Fail } (Join messages (ascii ", "))
  else self

/-- The method `Error`. -/
def Fixture.Error (env : Env) (self : Fixture) (args : List Value) : Fixture :=
  Fixture.reportFailure env { self with t := self.t.Fail } (Sprint args)

/-- The method `Errorf`. -/
def Fixture.Errorf (env : Env) (self : Fixture) (format : Str) (args : List Value) :
    Fixture :=
  Fixture.reportFailure env { self with t := self.t.Fail } (env.Sprintf format args)

/-- The method `Failed`. -/
def Fixture.Failed (self : Fixture) : Bool := self.t.Failed

/-- The warning that `recover` prints after the stack trace. -/
def panicWarning : Str :=
  ascii "* (Additional tests may have been skipped as a result of the panic shown above.)"

/-- The text `string(buffer)` in `recover`: the 16 KiB buffer of `make`, all zero
bytes, after `runtime.Stack` has written the trace `trace` into it. -/
def stackBuffer (trace : Str) : Str :=
  (runtimeStack (List.replicate (1024 * 16) 0) trace).1

/-- The method `recover`, with the stack trace `trace` that the runtime would print
at this point. -/
def Fixture.recover (self : Fixture) (r : Value) (trace : Str) : Fixture :=
  let self := (self.Println [Value.str (ascii "X PANIC:"), r]).1
  let buffer := stackBuffer trace
  let self := (self.Println [Value.str (TrimSpace buffer)]).1
  let self := (self.Println [Value.str panicWarning]).1
  { self with t := self.t.Fail }

/-- The method `Finalize`, run as a deferred call while `panicking` is the pending
panic of the test body (`none`: the body returned normally; `some payload`: it
unwinds with the value `payload`).  The result is the fixture afterwards and the
panic that goes on unwinding. -/
def Fixture.Finalize (self : Fixture) (panicking : Option Payload) (trace : Str) :
    Fixture × Option Payload :=
  let (r, panicking) := goRecover panicking
  let self := match r with
    | some r => self.recover r trace
    | none => self
  if self.t.Failed || (self.verbose && decide (0 < self.log.length)) then
    ({ self with
        t := TT.Log self.t [Value.str (ascii "\n" ++ TrimSpace self.log ++ ascii "\n")] },
      panicking)
  else (self, panicking)

/-! ## Test bodies as sequences of operations -/

/-- One call of a fixture method in a test body. -/
inductive Op where
  | So (actual : Value) (assert : Value → List Value → Str) (expected : List Value)
  | Ok (condition : Bool) (messages : List Str)
  | Error (args : List Value)
  | Errorf (format : Str) (args : List Value)
  | Print (a : List Value)
  | Printf (format : Str) (a : List Value)
  | Println (a : List Value)
  | Write (p : Str)
  | Failed

/-- The fixture after one operation. -/
def Op.run (env : Env) : Op → Fixture → Fixture
  | .So actual assert expected, f => (f.So env actual assert expected).1
  | .Ok condition messages, f => f.Ok env condition messages
  | .Error args, f => f.Error env args
  | .Errorf format args, f => f.Errorf env format args
  | .Print a, f => (f.Print a).1
  | .Printf format a, f => (f.Printf env format a).1
  | .Println a, f => (f.Println a).1
  | .Write p, f => (f.Write p).1
  | .Failed, f => f

/-- The failure text an operation reports, if it reports a failure. -/
def Op.failure (env : Env) : Op → Option Str
  | .So actual assert expected =>
    if (assertionsSo actual assert expected).1 then none
    else some (assertionsSo actual assert expected).2
  | .Ok condition messages =>
    if condition then none
    else some (Join (if messages.length = 0 then messages ++ [okDefaultMessage] else messages)
      (ascii ", "))
  | .Error args => some (Sprint args)
  | .Errorf format args => some (env.Sprintf format args)
  | _ => none

/-- The operations that report no failure: the printing ones, `Failed`, `Ok` on a
true condition and `So` on a comparison that passes. -/
def Op.passes : Op → Bool
  | .So actual assert expected => (assertionsSo actual assert expected).1
  | .Ok condition _ => condition
  | .Error _ => false
  | .Errorf _ _ => false
  | .Print _ => true
  | .Printf _ _ => true
  | .Println _ => true
  | .Write _ => true
  | .Failed => true

/-- The fixture after a sequence of operations. -/
def runOps (env : Env) (ops : List Op) (f : Fixture) : Fixture :=
  ops.foldl (fun f op => op.run env f) f

/-- The text an operation appends to the buffer. -/
def Op.output (env : Env) : Op → Str
  | .Print a => Sprint a
  | .Printf format a => env.Sprintf format a
  | .Println a => Sprintln a
  | .Write p => p
  | .Failed => []
  | op =>
    match op.failure env with
    | some text => env.NewFailureReport text
    | none => []

/-- A test case as the generated code runs it: a fresh fixture on the runner `t`,
the operations of the body, and `Finalize` (deferred, so it also runs when the
body panics after `ops` with the payload `panicking`). -/
def runCase (env : Env) (t : TT) (verbose : Bool) (ops : List Op)
    (panicking : Option Payload) (trace : Str) : Fixture × Option Payload :=
  (runOps env ops (NewFixture t verbose)).Finalize panicking trace

/-- The runner's fail flag along a test case that does not panic: before each
operation of the body, before `Finalize`, and after it. -/
def caseFlags (env : Env) (trace : Str) : List Op → Fixture → List Bool
  | [], f => [f.t.failed, (f.Finalize none trace).1.t.failed]
  | op :: ops, f => f.t.failed :: caseFlags env trace ops (op.run env f)

/-- One step of a test case: an operation of the body, or `Finalize`. -/
inductive Step where
  | op (o : Op)
  | finalize (panicking : Option Payload) (trace : Str)

/-- The fixture after one step. -/
def Step.run (env : Env) : Step → Fixture → Fixture
  | .op o, f => o.run env f
  | .finalize panicking trace, f => (f.Finalize panicking trace).1

/-- How often a sequence of fail flags goes from not failed to failed. -/
def failMarks : List Bool → Nat
  | false :: true :: rest => failMarks (true :: rest) + 1
  | _ :: b :: rest => failMarks (b :: rest)
  | _ => 0

/-- How often a sequence of fail flags goes from failed to not failed. -/
def failUnmarks : List Bool → Nat
  | true :: false :: rest => failUnmarks (false :: rest) + 1
  | _ :: b :: rest => failUnmarks (b :: rest)
  | _ => 0

/-! ## Sample inputs -/

/-- A sample environment: the failure report is the text after `Failure: `, on a
line of its own, and `Sprintf` is `doPrintf` where that is defined. -/
def sampleEnv : Env :=
  { NewFailureReport := fun failure => ascii "Failure: " ++ failure ++ ascii "\n"
    Sprintf := fun format a => (doPrintf format a).getD [] }

/-- A sample runner: nothing logged, not failed. -/
def freshT : TT := { log := [], failed := false }

/-- A sample runner that is marked failed. -/
def failedT : TT := { log := [], failed := true }

/-! ## Facts about the UTF-8 decoders -/

theorem IsSpace_RuneError : IsSpace RuneError = false := by decide

theorem first_spec {s0 sz lo hi : Nat} (h : first s0 = some (sz, lo, hi)) :
    2 ≤ sz ∧ sz ≤ 4 ∧ 0x80 ≤ lo ∧ hi ≤ 0xBF ∧ 0xC2 ≤ s0 := by
  unfold first at h
  split_ifs at h <;> simp only [Option.some.injEq, Prod.mk.injEq] at h <;>
    (try (obtain ⟨rfl, rfl, rfl⟩ := h)) <;> simp_all

theorem acceptTail_cont {lo hi : Nat} {tail : Str} (h : acceptTail lo hi tail = true)
    (hlo : 0x80 ≤ lo) (hhi : hi ≤ 0xBF) : ∀ c ∈ tail, isCont c = true := by
  cases tail with
  | nil => simp
  | cons s1 more =>
    simp only [acceptTail, Bool.and_eq_true, decide_eq_true_eq, List.all_eq_true] at h
    intro c hc
    rcases List.mem_cons.1 hc with rfl | hc
    · simp only [isCont, Bool.and_eq_true, decide_eq_true_eq]; omega
    · exact h.2 c hc

theorem decodeRune_cons (s0 : Nat) (rest : Str) :
    decodeRune (s0 :: rest) =
      if s0 < RuneSelf then (s0, 1)
      else
        match first s0 with
        | none => (RuneError, 1)
        | some (sz, lo, hi) =>
          if rest.length + 1 < sz then (RuneError, 1)
          else if acceptTail lo hi (rest.take (sz - 1)) then
            (runeOf sz s0 (rest.take (sz - 1)), sz)
          else (RuneError, 1) := rfl

/-- What a successful decoding looks like: an ASCII byte, or a lead byte followed
by its continuation bytes. -/
theorem decodeRune_ok {s : Str} {r w : Nat} (h : decodeRune s = (r, w))
    (hne : s ≠ []) (herr : ¬ (r = RuneError ∧ w = 1)) :
    (∃ rest, s = r :: rest ∧ r < RuneSelf ∧ w = 1) ∨
    (∃ s0 rest sz lo hi, s = s0 :: rest ∧ ¬ s0 < RuneSelf ∧ first s0 = some (sz, lo, hi) ∧
      sz ≤ rest.length + 1 ∧ acceptTail lo hi (rest.take (sz - 1)) = true ∧
      r = runeOf sz s0 (rest.take (sz - 1)) ∧ w = sz) := by
  cases s with
  | nil => exact absurd rfl hne
  | cons s0 rest =>
    rw [decodeRune_cons] at h
    split_ifs at h with h0
    · simp only [Prod.mk.injEq] at h
      exact Or.inl ⟨rest, by rw [h.1], h.1 ▸ h0, h.2.symm⟩
    · right
      cases hf : first s0 with
      | none =>
        rw [hf] at h
        simp only [Prod.mk.injEq] at h
        exact absurd ⟨h.1.symm, h.2.symm⟩ herr
      | some x =>
        obtain ⟨sz, lo, hi⟩ := x
        rw [hf] at h
        simp only at h
        split_ifs at h with h1 h2
        · simp only [Prod.mk.injEq] at h
          exact absurd ⟨h.1.symm, h.2.symm⟩ herr
        · simp only [Prod.mk.injEq] at h
          exact ⟨s0, rest, sz, lo, hi, rfl, h0, hf, by omega, h2, h.1.symm, h.2.symm⟩
        · simp only [Prod.mk.injEq] at h
          exact absurd ⟨h.1.symm, h.2.symm⟩ herr

/-- A successful decoding does not depend on what follows the encoding. -/
theorem decodeRune_append {s : Str} {r w : Nat} (h : decodeRune s = (r, w))
    (hne : s ≠ []) (herr : ¬ (r = RuneError ∧ w = 1)) (post : Str) :
    decodeRune (s ++ post) = (r, w) := by
  rcases decodeRune_ok h hne herr with ⟨rest, rfl, hlt, rfl⟩ |
    ⟨s0, rest, sz, lo, hi, rfl, h0, hf, hlen, hacc, rfl, rfl⟩
  · rw [List.cons_append, decodeRune_cons, if_pos hlt]
  · have htake : List.take (w - 1) (rest ++ post) = List.take (w - 1) rest :=
      List.take_append_of_le_length (by omega)
    rw [List.cons_append, decodeRune_cons, if_neg h0, hf]
    simp only [htake, hacc, if_true, List.length_append]
    rw [if_neg (by omega)]

/-- The width of a successful decoding is the length of an encoding at the head
of the string. -/
theorem decodeRune_take {s : Str} {r w : Nat} (h : decodeRune s = (r, w))
    (hne : s ≠ []) (herr : ¬ (r = RuneError ∧ w = 1)) :
    w ≤ s.length ∧ IsEnc (s.take w) r := by
  rcases decodeRune_ok h hne herr with ⟨rest, rfl, hlt, rfl⟩ |
    ⟨s0, rest, sz, lo, hi, rfl, h0, hf, hlen, hacc, rfl, rfl⟩
  · refine ⟨by simp, by simp, ?_, by simpa using herr⟩
    simp [decodeRune_cons, hlt]
  · obtain ⟨h2, h4, -, -, -⟩ := first_spec hf
    have hw : w = (w - 1) + 1 := by omega
    have htk : List.take w (s0 :: rest) = s0 :: List.take (w - 1) rest := by
      conv_lhs => rw [hw]
      rfl
    have hl : (List.take (w - 1) rest).length = w - 1 := by
      rw [List.length_take]; omega
    refine ⟨by simpa using hlen, by rw [htk]; simp, ?_, ?_⟩
    · rw [htk, decodeRune_cons, if_neg h0, hf]
      simp only [hl, List.length_cons, List.take_take, min_self]
      rw [if_neg (by omega), if_pos hacc]
      congr 1
    · rw [htk, List.length_cons, hl]
      omega

/-- The shape of an encoding: one ASCII byte, or a lead byte and one to three
continuation bytes. -/
theorem isEnc_shape {enc : Str} {r : Nat} (h : IsEnc enc r) :
    (∃ a, enc = [a] ∧ a < RuneSelf ∧ r = a) ∨
    (∃ s0 tail, enc = s0 :: tail ∧ ¬ s0 < RuneSelf ∧ RuneStart s0 = true ∧ tail ≠ [] ∧
      tail.length ≤ 3 ∧ ∀ c ∈ tail, isCont c = true) := by
  obtain ⟨hne, hd, herr⟩ := h
  rcases decodeRune_ok hd hne herr with ⟨rest, rfl, hlt, hl⟩ |
    ⟨s0, rest, sz, lo, hi, rfl, h0, hf, hlen, hacc, -, hl⟩
  · left
    simp only [List.length_cons, add_left_eq_self, List.length_eq_zero] at hl
    exact ⟨r, by rw [hl], hlt, rfl⟩
  · right
    obtain ⟨h2, h4, hlo, hhi, hs0⟩ := first_spec hf
    simp only [List.length_cons] at hl
    have htake : List.take (sz - 1) rest = rest := List.take_of_length_le (by omega)
    rw [htake] at hacc
    refine ⟨s0, rest, rfl, h0, ?_, ?_, by omega, acceptTail_cont hacc hlo hhi⟩
    · simp only [RuneStart, isCont, Bool.not_eq_true', Bool.and_eq_false_imp, decide_eq_true_eq,
        decide_eq_false_iff_not]
      omega
    · intro hr
      rw [hr] at hl
      simp at hl
      omega

theorem decodeCandidate_ok {cand : Str} {r w : Nat} (h : decodeCandidate cand = (r, w))
    (hne : cand ≠ []) (herr : ¬ (r = RuneError ∧ w = 1)) : cand.length = w ∧ IsEnc cand r := by
  unfold decodeCandidate at h
  simp only at h
  split_ifs at h with hsz
  · simp only [Prod.mk.injEq] at h
    obtain ⟨h1, h2⟩ := h
    have hd : decodeRune cand = (r, cand.length) := by
      rw [← hsz, ← h1]
    exact ⟨by omega, hne, hd, by rw [← hsz, h2]; exact herr⟩
  · simp only [Prod.mk.injEq] at h
    exact absurd ⟨h.1.symm, h.2.symm⟩ herr

theorem decodeCandidate_isEnc {cand : Str} {r : Nat} (h : IsEnc cand r) :
    decodeCandidate cand = (r, cand.length) := by
  unfold decodeCandidate
  rw [h.2.1]
  simp

/-- What a successful backward decoding looks like: the string ends with a complete
encoding of the rune. -/
theorem decodeLastRev_ok {T : Str} {r w : Nat} (h : decodeLastRev T = (r, w))
    (hne : T ≠ []) (herr : ¬ (r = RuneError ∧ w = 1)) :
    ∃ E Y, T = E ++ Y ∧ E.length = w ∧ IsEnc E.reverse r := by
  have bad : ∀ {P : Prop}, ((RuneError, 1) : Nat × Nat) = (r, w) → P := by
    intro P hh
    simp only [Prod.mk.injEq] at hh
    exact absurd ⟨hh.1.symm, hh.2.symm⟩ herr
  rcases T with _ | ⟨b0, rest⟩
  · exact absurd rfl hne
  · simp only [decodeLastRev] at h
    split_ifs at h with h0
    · simp only [Prod.mk.injEq] at h
      obtain ⟨rfl, rfl⟩ := h
      refine ⟨[b0], rest, rfl, rfl, by simp, ?_, by simpa using herr⟩
      simp [decodeRune_cons, h0]
    · rcases rest with _ | ⟨b1, rest1⟩
      · exact bad h
      · simp only at h
        split_ifs at h with h1
        · obtain ⟨hl, he⟩ := decodeCandidate_ok h (by simp) herr
          exact ⟨[b0, b1], rest1, rfl, hl, he⟩
        · rcases rest1 with _ | ⟨b2, rest2⟩
          · exact bad h
          · simp only at h
            split_ifs at h with h2
            · obtain ⟨hl, he⟩ := decodeCandidate_ok h (by simp) herr
              exact ⟨[b0, b1, b2], rest2, rfl, hl, he⟩
            · rcases rest2 with _ | ⟨b3, rest3⟩
              · exact bad h
              · simp only at h
                split_ifs at h with h3
                · obtain ⟨hl, he⟩ := decodeCandidate_ok h (by simp) herr
                  exact ⟨[b0, b1, b2, b3], rest3, rfl, hl, he⟩
                · exact bad h

/-- A string that ends with a complete encoding decodes backward to its rune. -/
theorem decodeLastRev_isEnc {enc : Str} {r : Nat} (h : IsEnc enc r) (P : Str) :
    decodeLastRev (enc.reverse ++ P) = (r, enc.length) := by
  rcases isEnc_shape h with ⟨a, rfl, ha, rfl⟩ | ⟨s0, tail, rfl, h0, hs, hne, hlen, hc⟩
  · simp [decodeLastRev, ha]
  · have hcont : ∀ c, isCont c = true → ¬ c < RuneSelf ∧ RuneStart c = false := by
      intro c hcc
      simp only [isCont, Bool.and_eq_true, decide_eq_true_eq] at hcc
      simp only [RuneSelf, RuneStart, isCont, Bool.not_eq_false', Bool.and_eq_true,
        decide_eq_true_eq]
      omega
    rcases tail with _ | ⟨c1, _ | ⟨c2, _ | ⟨c3, _ | ⟨c4, l⟩⟩⟩⟩
    · exact absurd rfl hne
    · obtain ⟨k1, -⟩ := hcont c1 (hc c1 (by simp))
      have := decodeCandidate_isEnc h
      simp only [List.reverse_cons, List.reverse_nil, List.nil_append, List.cons_append,
        decodeLastRev, if_neg k1, hs, if_true]
      simpa using this
    · obtain ⟨-, j1⟩ := hcont c1 (hc c1 (by simp))
      obtain ⟨k2, -⟩ := hcont c2 (hc c2 (by simp))
      have := decodeCandidate_isEnc h
      simp only [List.reverse_cons, List.reverse_nil, List.nil_append, List.cons_append,
        List.append_assoc, decodeLastRev, if_neg k2, hs, j1, if_true]
      simpa using this
    · obtain ⟨-, j1⟩ := hcont c1 (hc c1 (by simp))
      obtain ⟨-, j2⟩ := hcont c2 (hc c2 (by simp))
      obtain ⟨k3, -⟩ := hcont c3 (hc c3 (by simp))
      have := decodeCandidate_isEnc h
      simp only [List.reverse_cons, List.reverse_nil, List.nil_append, List.cons_append,
        List.append_assoc, decodeLastRev, if_neg k3, hs, j1, j2, if_true]
      simpa using this
    · simp at hlen

theorem isEnc_head {b : Nat} {bs : Str} {r : Nat} (h : IsEnc (b :: bs) r) :
    isCont b = false ∧ ∀ c ∈ bs, isCont c = true := by
  rcases isEnc_shape h with ⟨a, he, ha, -⟩ | ⟨s0, tail, he, -, hs, -, -, hc⟩
  · simp only [List.cons.injEq] at he
    obtain ⟨rfl, rfl⟩ := he
    refine ⟨?_, by simp⟩
    simp only [RuneSelf] at ha
    simp only [isCont, Bool.and_eq_false_imp, decide_eq_true_eq, decide_eq_false_iff_not]
    omega
  · simp only [List.cons.injEq] at he
    obtain ⟨rfl, rfl⟩ := he
    exact ⟨by simpa [RuneStart] using hs, hc⟩

theorem isSpace_not_error {r w : Nat} (h : IsSpace r = true) : ¬ (r = RuneError ∧ w = 1) := by
  rintro ⟨rfl, -⟩
  rw [IsSpace_RuneError] at h
  exact Bool.noConfusion h

/-! ## Facts about `strings.TrimSpace` -/

theorem decodeRune_width_pos (b : Nat) (s : Str) : 1 ≤ (decodeRune (b :: s)).2 := by
  rw [decodeRune_cons]
  split_ifs with h0
  · exact le_refl _
  · cases hf : first b with
    | none => exact le_refl _
    | some x =>
      obtain ⟨sz, lo, hi⟩ := x
      have := (first_spec hf).1
      simp only
      split_ifs
      · exact le_refl _
      · simp only
        omega
      · exact le_refl _

theorem decodeCandidate_width_pos (cand : Str) (h : cand ≠ []) :
    1 ≤ (decodeCandidate cand).2 := by
  unfold decodeCandidate
  simp only
  split_ifs with hsz
  · simp only [hsz]
    exact List.length_pos.2 h
  · exact le_refl _

theorem decodeLastRune_width_pos (s : Str) (h : s ≠ []) : 1 ≤ (decodeLastRune s).2 := by
  unfold decodeLastRune
  have hr : s.reverse ≠ [] := by simpa using h
  rcases hs : s.reverse with _ | ⟨b0, _ | ⟨b1, _ | ⟨b2, _ | ⟨b3, rest⟩⟩⟩⟩
  · exact absurd hs hr
  all_goals
    simp only [decodeLastRev]
    repeat' split
    all_goals first
      | exact le_refl _
      | exact decodeCandidate_width_pos _ (by simp)

/-- The loop of `TrimLeftFunc` does not run out of fuel: any fuel from the length
of the string on gives the same result. -/
theorem trimLeftLoop_fuel (f : Nat → Bool) :
    ∀ (fuel1 fuel2 : Nat) (s : Str), s.length ≤ fuel1 → s.length ≤ fuel2 →
      trimLeftLoop f fuel1 s = trimLeftLoop f fuel2 s := by
  intro fuel1
  induction fuel1 with
  | zero =>
    intro fuel2 s h1 _
    have : s = [] := List.length_eq_zero.1 (Nat.le_zero.1 h1)
    subst this
    cases fuel2 <;> rfl
  | succ fuel1 ih =>
    intro fuel2 s h1 h2
    cases s with
    | nil => cases fuel2 <;> rfl
    | cons b s =>
      cases fuel2 with
      | zero => simp at h2
      | succ fuel2 =>
        simp only [trimLeftLoop]
        split_ifs with hsp
        · have hw := decodeRune_width_pos b s
          apply ih
          · simp only [List.length_drop, List.length_cons] at h1 ⊢; omega
          · simp only [List.length_drop, List.length_cons] at h2 ⊢; omega
        · rfl

/-- The loop of `TrimRightFunc` does not run out of fuel. -/
theorem trimRightLoop_fuel (f : Nat → Bool) :
    ∀ (fuel1 fuel2 : Nat) (s : Str), s.length ≤ fuel1 → s.length ≤ fuel2 →
      trimRightLoop f fuel1 s = trimRightLoop f fuel2 s := by
  intro fuel1
  induction fuel1 with
  | zero =>
    intro fuel2 s h1 _
    have : s = [] := List.length_eq_zero.1 (Nat.le_zero.1 h1)
    subst this
    cases fuel2 <;> simp [trimRightLoop]
  | succ fuel1 ih =>
    intro fuel2 s h1 h2
    by_cases hs : s = []
    · subst hs
      cases fuel2 <;> simp [trimRightLoop]
    · cases fuel2 with
      | zero => exact absurd (List.length_eq_zero.1 (Nat.le_zero.1 h2)) hs
      | succ fuel2 =>
        simp only [trimRightLoop, if_neg hs]
        split_ifs with hsp
        · have hw := decodeLastRune_width_pos s hs
          have hl := List.length_pos.2 hs
          apply ih
          · simp only [List.length_take]; omega
          · simp only [List.length_take]; omega
        · rfl

/-- What `TrimLeftFunc` returns is an end of the string that is empty or begins with
a rune for which `f` does not hold: the loop has run to its end. -/
theorem TrimLeftFunc_done (f : Nat → Bool) (s : Str) :
    TrimLeftFunc s f <:+ s ∧
    (TrimLeftFunc s f = [] ∨ f (decodeRune (TrimLeftFunc s f)).1 = false) := by
  unfold TrimLeftFunc
  have key : ∀ (fuel : Nat) (s : Str), s.length ≤ fuel →
      trimLeftLoop f fuel s <:+ s ∧
      (trimLeftLoop f fuel s = [] ∨ f (decodeRune (trimLeftLoop f fuel s)).1 = false) := by
    intro fuel
    induction fuel with
    | zero =>
      intro s h
      have : s = [] := List.length_eq_zero.1 (Nat.le_zero.1 h)
      subst this
      exact ⟨List.suffix_refl _, Or.inl rfl⟩
    | succ fuel ih =>
      intro s h
      cases s with
      | nil => exact ⟨List.suffix_refl _, Or.inl rfl⟩
      | cons b s =>
        simp only [trimLeftLoop]
        split_ifs with hsp
        · have hw := decodeRune_width_pos b s
          obtain ⟨h1, h2⟩ := ih ((b :: s).drop (decodeRune (b :: s)).2) (by
            simp only [List.length_drop, List.length_cons] at h ⊢; omega)
          exact ⟨h1.trans (List.drop_suffix _ _), h2⟩
        · exact ⟨List.suffix_refl _, Or.inr (by simpa using hsp)⟩
  exact key _ s (le_refl _)

/-- What `TrimRightFunc` returns is a beginning of the string that is empty or ends
with a rune for which `f` does not hold. -/
theorem TrimRightFunc_done (f : Nat → Bool) (s : Str) :
    TrimRightFunc s f <+: s ∧
    (TrimRightFunc s f = [] ∨ f (decodeLastRune (TrimRightFunc s f)).1 = false) := by
  unfold TrimRightFunc
  have key : ∀ (fuel : Nat) (s : Str), s.length ≤ fuel →
      trimRightLoop f fuel s <+: s ∧
      (trimRightLoop f fuel s = [] ∨ f (decodeLastRune (trimRightLoop f fuel s)).1 = false) := by
    intro fuel
    induction fuel with
    | zero =>
      intro s h
      have : s = [] := List.length_eq_zero.1 (Nat.le_zero.1 h)
      subst this
      exact ⟨List.prefix_refl _, Or.inl rfl⟩
    | succ fuel ih =>
      intro s h
      by_cases hs : s = []
      · subst hs
        simp [trimRightLoop]
      · simp only [trimRightLoop, if_neg hs]
        split_ifs with hsp
        · have hw := decodeLastRune_width_pos s hs
          have hl := List.length_pos.2 hs
          obtain ⟨h1, h2⟩ := ih (s.take (s.length - (decodeLastRune s).2)) (by
            simp only [List.length_take]; omega)
          exact ⟨h1.trans (List.take_prefix _ _), h2⟩
        · exact ⟨List.prefix_refl _, Or.inr (by simpa using hsp)⟩
  exact key _ s (le_refl _)

/-- What `TrimSpace` returns is a part of the string. -/
theorem TrimSpace_part (s : Str) : TrimSpace s <:+: s := by
  unfold TrimSpace TrimFunc
  exact (TrimRightFunc_done IsSpace _).1.isInfix.trans (TrimLeftFunc_done IsSpace s).1.isInfix


theorem solidStart_ascii {b : Nat} (s : Str) (hb : b < RuneSelf) (hs : IsSpace b = false) :
    SolidStart (b :: s) := by
  have hd : decodeRune (b :: s) = (b, 1) := by rw [decodeRune_cons, if_pos hb]
  refine ⟨by simp, ?_, ?_⟩
  · rw [hd]
    rintro ⟨rfl, -⟩
    simp [RuneError, RuneSelf] at hb
  · rw [hd]; exact hs

theorem solidEnd_ascii {b : Nat} (s : Str) (hb : b < RuneSelf) (hs : IsSpace b = false) :
    SolidEnd (s ++ [b]) := by
  have hd : decodeLastRune (s ++ [b]) = (b, 1) := by
    simp [decodeLastRune, decodeLastRev, hb]
  refine ⟨by simp, ?_, ?_⟩
  · rw [hd]
    rintro ⟨rfl, -⟩
    simp [RuneError, RuneSelf] at hb
  · rw [hd]; exact hs

theorem solidStart_isEnc {t : Str} (h : SolidStart t) :
    ∃ enc rest r, t = enc ++ rest ∧ IsEnc enc r ∧ IsSpace r = false := by
  obtain ⟨hne, herr, hsp⟩ := h
  rcases hd : decodeRune t with ⟨r, w⟩
  rw [hd] at herr hsp
  obtain ⟨hw, he⟩ := decodeRune_take hd hne herr
  exact ⟨_, _, _, (List.take_append_drop _ t).symm, he, hsp⟩

theorem solidEnd_isEnc {t : Str} (h : SolidEnd t) :
    ∃ init enc r, t = init ++ enc ∧ IsEnc enc r ∧ IsSpace r = false := by
  obtain ⟨hne, herr, hsp⟩ := h
  rcases hd : decodeLastRune t with ⟨r, w⟩
  rw [hd] at herr hsp
  obtain ⟨E, Y, hT, -, he⟩ := decodeLastRev_ok (T := t.reverse) hd (by simpa using hne) herr
  refine ⟨Y.reverse, E.reverse, _, ?_, he, hsp⟩
  have := congrArg List.reverse hT
  simpa using this

/-- Decoding forward over a string that begins with an encoding. -/
theorem decodeRune_isEnc_append {enc : Str} {r : Nat} (h : IsEnc enc r) (rest : Str) :
    decodeRune (enc ++ rest) = (r, enc.length) :=
  decodeRune_append h.2.1 h.1 h.2.2 rest

/-- Decoding backward over a string that ends with an encoding. -/
theorem decodeLastRune_append_isEnc {enc : Str} {r : Nat} (h : IsEnc enc r) (init : Str) :
    decodeLastRune (init ++ enc) = (r, enc.length) := by
  have := decodeLastRev_isEnc h init.reverse
  simpa [decodeLastRune] using this

/-- A white-space rune decoded at the head of `pre ++ t` lies within `pre`, when `t`
begins with a well-formed rune. -/
theorem decodeRune_within {pre t : Str} (ht : SolidStart t) (hpre : pre ≠ [])
    (hsp : IsSpace (decodeRune (pre ++ t)).1 = true) :
    1 ≤ (decodeRune (pre ++ t)).2 ∧ (decodeRune (pre ++ t)).2 ≤ pre.length := by
  obtain ⟨enc, rest, r, rfl, he, -⟩ := solidStart_isEnc ht
  rcases hd : decodeRune (pre ++ (enc ++ rest)) with ⟨r2, w⟩
  rw [hd] at hsp
  simp only at hsp ⊢
  obtain ⟨hw, he2⟩ := decodeRune_take hd (by simp [hpre]) (isSpace_not_error hsp)
  have hw1 : 1 ≤ w := by
    rcases Nat.eq_zero_or_pos w with h0 | h0
    · subst h0
      exact absurd (List.take_zero _) he2.1
    · exact h0
  refine ⟨hw1, ?_⟩
  by_contra hgt
  push_neg at hgt
  obtain ⟨p0, pre1, rfl⟩ := List.exists_cons_of_ne_nil hpre
  obtain ⟨e0, enc1, rfl⟩ := List.exists_cons_of_ne_nil he.1
  have htk : List.take w (p0 :: pre1 ++ (e0 :: enc1 ++ rest)) =
      p0 :: (pre1 ++ e0 :: List.take (w - (pre1.length + 1) - 1) (enc1 ++ rest)) := by
    simp only [List.length_cons] at hgt
    obtain ⟨k, rfl⟩ : ∃ k, w = (pre1.length + 1) + (k + 1) := ⟨w - (pre1.length + 1) - 1, by omega⟩
    have h1 : p0 :: pre1 ++ (e0 :: enc1 ++ rest) = (p0 :: pre1) ++ (e0 :: (enc1 ++ rest)) := by simp
    have h2 : pre1.length + 1 = (p0 :: pre1).length := rfl
    rw [h1, h2, List.take_append]
    simp
  rw [htk] at he2
  have h1 := (isEnc_head he2).2 e0 (by simp)
  have h2 := (isEnc_head he).1
  rw [h1] at h2
  exact Bool.noConfusion h2

/-- A white-space rune decoded at the end of `t ++ post` lies within `post`, when
`t` ends with a well-formed rune. -/
theorem decodeLastRune_within {t post : Str} (ht : SolidEnd t) (hpost : post ≠ [])
    (hsp : IsSpace (decodeLastRune (t ++ post)).1 = true) :
    1 ≤ (decodeLastRune (t ++ post)).2 ∧ (decodeLastRune (t ++ post)).2 ≤ post.length := by
  obtain ⟨init, enc, r, rfl, he, -⟩ := solidEnd_isEnc ht
  rcases hd : decodeLastRune (init ++ enc ++ post) with ⟨r2, w⟩
  rw [hd] at hsp
  simp only at hsp ⊢
  obtain ⟨E, Y, hT, hl, he2⟩ :=
    decodeLastRev_ok (T := (init ++ enc ++ post).reverse) hd (by simp [hpost])
      (isSpace_not_error hsp)
  have hs : init ++ enc ++ post = Y.reverse ++ E.reverse := by
    have := congrArg List.reverse hT
    simpa using this
  have hE : (E.reverse).length = w := by simpa using hl
  generalize E.reverse = enc2 at hs he2 hE
  generalize Y.reverse = Y2 at hs
  have hw1 : 1 ≤ w := by
    rcases Nat.eq_zero_or_pos w with h0 | h0
    · subst h0
      exact absurd (List.length_eq_zero.1 hE) he2.1
    · exact h0
  refine ⟨hw1, ?_⟩
  by_contra hgt
  push_neg at hgt
  obtain ⟨e0, enc1, rfl⟩ := List.exists_cons_of_ne_nil he.1
  have hhead := (isEnc_head he).1
  rcases List.append_eq_append_iff.1 hs with ⟨a, -, ha⟩ | ⟨c, hc, hc2⟩
  · have := congrArg List.length ha
    simp only [List.length_append] at this
    omega
  · -- enc2 = c ++ post, and c is a suffix of init ++ enc
    rcases List.append_eq_append_iff.1 hc with ⟨a, -, ha⟩ | ⟨d, -, hd⟩
    · -- e0 :: enc1 = a ++ c
      rcases a with _ | ⟨a0, a1⟩
      · simp only [List.nil_append] at ha
        subst ha
        subst hc2
        have h1 := decodeRune_isEnc_append he post
        rw [he2.2.1] at h1
        simp only [Prod.mk.injEq, List.length_append] at h1
        have := List.length_pos.2 hpost
        omega
      · rcases c with _ | ⟨c0, c1⟩
        · simp only [List.nil_append] at hc2
          subst hc2
          omega
        · simp only [List.cons_append, List.cons.injEq] at ha
          have hm : c0 ∈ enc1 := by rw [ha.2]; simp
          have h1 := (isEnc_head he).2 c0 hm
          subst hc2
          have h2 := (isEnc_head he2).1
          rw [h1] at h2
          exact Bool.noConfusion h2
    · -- c = d ++ e0 :: enc1
      rcases d with _ | ⟨d0, d1⟩
      · simp only [List.nil_append] at hd
        subst hd
        subst hc2
        have h1 := decodeRune_isEnc_append he post
        rw [he2.2.1] at h1
        simp only [Prod.mk.injEq, List.length_append] at h1
        have := List.length_pos.2 hpost
        omega
      · subst hd
        subst hc2
        have h1 := (isEnc_head he2).2 e0 (by simp)
        rw [h1] at hhead
        exact Bool.noConfusion hhead

/-- Trimming on the left stops at the latest where a well-formed rune that is not
white space begins. -/
theorem trimLeftLoop_keep {t : Str} (ht : SolidStart t) :
    ∀ (fuel : Nat) (pre : Str), (pre ++ t).length ≤ fuel →
      ∃ pre1, pre1 <:+ pre ∧ trimLeftLoop IsSpace fuel (pre ++ t) = pre1 ++ t := by
  intro fuel
  induction fuel with
  | zero =>
    intro pre hlen
    have : pre ++ t = [] := List.length_eq_zero.1 (Nat.le_zero.1 hlen)
    exact absurd (List.append_eq_nil.1 this).2 ht.1
  | succ fuel ih =>
    intro pre hlen
    rcases hs : pre ++ t with _ | ⟨b, s⟩
    · exact absurd (List.append_eq_nil.1 hs).2 ht.1
    · simp only [trimLeftLoop]
      rw [← hs]
      by_cases hsp : IsSpace (decodeRune (pre ++ t)).1 = true
      · rw [if_pos hsp]
        have hpre : pre ≠ [] := by
          rintro rfl
          rw [List.nil_append, ht.2.2] at hsp
          exact Bool.noConfusion hsp
        obtain ⟨h1, h2⟩ := decodeRune_within ht hpre hsp
        rw [List.drop_append_of_le_length h2]
        obtain ⟨pre1, hsuf, heq⟩ := ih (pre.drop (decodeRune (pre ++ t)).2) (by
          simp only [List.length_append, List.length_drop] at hlen ⊢
          omega)
        exact ⟨pre1, hsuf.trans (List.drop_suffix _ _), heq⟩
      · rw [if_neg hsp]
        exact ⟨pre, List.suffix_refl _, rfl⟩

/-- Trimming on the right stops at the latest where a well-formed rune that is not
white space ends. -/
theorem trimRightLoop_keep {t : Str} (ht : SolidEnd t) :
    ∀ (fuel : Nat) (post : Str), (t ++ post).length ≤ fuel →
      ∃ post1, post1 <+: post ∧ trimRightLoop IsSpace fuel (t ++ post) = t ++ post1 := by
  intro fuel
  induction fuel with
  | zero =>
    intro post hlen
    have : t ++ post = [] := List.length_eq_zero.1 (Nat.le_zero.1 hlen)
    exact absurd (List.append_eq_nil.1 this).1 ht.1
  | succ fuel ih =>
    intro post hlen
    have hne : t ++ post ≠ [] := fun h => ht.1 (List.append_eq_nil.1 h).1
    simp only [trimRightLoop]
    rw [if_neg hne]
    by_cases hsp : IsSpace (decodeLastRune (t ++ post)).1 = true
    · rw [if_pos hsp]
      have hpost : post ≠ [] := by
        rintro rfl
        rw [List.append_nil, ht.2.2] at hsp
        exact Bool.noConfusion hsp
      obtain ⟨h1, h2⟩ := decodeLastRune_within ht hpost hsp
      have htake : List.take ((t ++ post).length - (decodeLastRune (t ++ post)).2) (t ++ post) =
          t ++ List.take (post.length - (decodeLastRune (t ++ post)).2) post := by
        rw [List.take_append_eq_append_take, List.take_of_length_le (by
          simp only [List.length_append]; omega)]
        congr 2
        simp only [List.length_append]
        omega
      rw [htake]
      obtain ⟨post1, hpre, heq⟩ := ih (post.take (post.length - (decodeLastRune (t ++ post)).2)) (by
        simp only [List.length_append, List.length_take] at hlen ⊢
        omega)
      exact ⟨post1, hpre.trans (List.take_prefix _ _), heq⟩
    · rw [if_neg hsp]
      exact ⟨post, List.prefix_refl _, rfl⟩

theorem solidStart_append {t : Str} (ht : SolidStart t) (post : Str) : SolidStart (t ++ post) := by
  obtain ⟨enc, rest, r, rfl, he, hsp⟩ := solidStart_isEnc ht
  have hd := decodeRune_isEnc_append he (rest ++ post)
  rw [← List.append_assoc] at hd
  refine ⟨by simp [he.1], ?_, ?_⟩
  · rw [hd]
    intro h
    exact he.2.2 h
  · rw [hd]; exact hsp

theorem solidEnd_append {t : Str} (ht : SolidEnd t) (pre : Str) : SolidEnd (pre ++ t) := by
  obtain ⟨init, enc, r, rfl, he, hsp⟩ := solidEnd_isEnc ht
  have hd := decodeLastRune_append_isEnc he (pre ++ init)
  rw [List.append_assoc] at hd
  refine ⟨by simp [he.1], ?_, ?_⟩
  · rw [hd]
    intro h
    exact he.2.2 h
  · rw [hd]; exact hsp

/-- A text between two well-formed runes that are not white space survives
`strings.TrimSpace`, whatever stands before and after it. -/
theorem TrimSpace_keep {t : Str} (hs : SolidStart t) (he : SolidEnd t) (pre post : Str) :
    ∃ pre1 post1, pre1 <:+ pre ∧ post1 <+: post ∧
      TrimSpace (pre ++ t ++ post) = pre1 ++ t ++ post1 := by
  obtain ⟨pre1, h1, e1⟩ := trimLeftLoop_keep (solidStart_append hs post) _ pre (le_refl _)
  obtain ⟨post1, h2, e2⟩ := trimRightLoop_keep (solidEnd_append he pre1) _ post (le_refl _)
  refine ⟨pre1, post1, h1, h2, ?_⟩
  simp only [TrimSpace, TrimFunc, TrimLeftFunc, TrimRightFunc]
  rw [List.append_assoc, e1, ← List.append_assoc, e2]

theorem TrimSpace_contains {t : Str} (hs : SolidStart t) (he : SolidEnd t) (pre post : Str) :
    t <:+: TrimSpace (pre ++ t ++ post) := by
  obtain ⟨pre1, post1, -, -, e⟩ := TrimSpace_keep hs he pre post
  exact ⟨pre1, post1, e.symm⟩

theorem TrimSpace_solid {t : Str} (hs : SolidStart t) (he : SolidEnd t) : TrimSpace t = t := by
  obtain ⟨pre1, post1, h1, h2, e⟩ := TrimSpace_keep hs he [] []
  have p1 : pre1 = [] := List.eq_nil_of_suffix_nil h1
  have p2 : post1 = [] := List.eq_nil_of_prefix_nil h2
  subst p1 p2
  simpa using e

theorem TrimSpace_nil : TrimSpace [] = [] := rfl

theorem decodeRune_width_le (s : Str) : (decodeRune s).2 ≤ s.length := by
  cases s with
  | nil => exact le_refl _
  | cons s0 rest =>
    rw [decodeRune_cons]
    split_ifs with h0
    · simp
    · cases hf : first s0 with
      | none => simp
      | some x =>
        obtain ⟨sz, lo, hi⟩ := x
        simp only
        split_ifs with h1 h2
        · simp
        · simp only [List.length_cons]
          omega
        · simp

/-- Decoding at the head of a string is not changed by what follows it, when that
begins with a byte that is not a continuation byte. -/
theorem decodeRune_append_start {s : Str} (hs : s ≠ []) {c : Nat} (hc : isCont c = false)
    (z : Str) : decodeRune (s ++ c :: z) = decodeRune s := by
  obtain ⟨s0, rest, rfl⟩ := List.exists_cons_of_ne_nil hs
  rw [List.cons_append, decodeRune_cons, decodeRune_cons]
  split_ifs with h0
  · rfl
  · cases hf : first s0 with
    | none => rfl
    | some x =>
      obtain ⟨sz, lo, hi⟩ := x
      obtain ⟨h2, h4, hlo, hhi, -⟩ := first_spec hf
      simp only
      by_cases htr : rest.length + 1 < sz
      · rw [if_pos htr]
        split_ifs with h1 hacc
        · rfl
        · exfalso
          have hall := acceptTail_cont hacc hlo hhi
          have hmem : c ∈ List.take (sz - 1) (rest ++ c :: z) := by
            obtain ⟨k, hk⟩ : ∃ k, sz - 1 = rest.length + (k + 1) :=
              ⟨sz - 1 - rest.length - 1, by omega⟩
            rw [hk, List.take_append]
            simp
          rw [hall c hmem] at hc
          exact Bool.noConfusion hc
        · rfl
      · have htake : List.take (sz - 1) (rest ++ c :: z) = List.take (sz - 1) rest :=
          List.take_append_of_le_length (by omega)
        rw [if_neg htr, if_neg (by simp only [List.length_append, List.length_cons]; omega), htake]

/-- Trimming on the left stops at an ASCII byte that is not white space, and what
stands before that byte is trimmed as it is on its own. -/
theorem trimLeftLoop_append_ascii {c : Nat} (hc : c < RuneSelf) (hsp : IsSpace c = false)
    (z : Str) :
    ∀ (fuel1 fuel2 : Nat) (s : Str), s.length ≤ fuel1 → (s ++ c :: z).length ≤ fuel2 →
      trimLeftLoop IsSpace fuel2 (s ++ c :: z) = trimLeftLoop IsSpace fuel1 s ++ c :: z := by
  have hcont : isCont c = false := by
    simp only [RuneSelf] at hc
    simp only [isCont, Bool.and_eq_false_imp, decide_eq_true_eq, decide_eq_false_iff_not]
    omega
  have hdc : decodeRune (c :: z) = (c, 1) := by rw [decodeRune_cons, if_pos hc]
  have hstop : ∀ fuel2, (c :: z).length ≤ fuel2 →
      trimLeftLoop IsSpace fuel2 (c :: z) = c :: z := by
    intro fuel2 h2
    cases fuel2 with
    | zero => simp at h2
    | succ fuel2 =>
      simp only [trimLeftLoop, hdc, hsp]
      rfl
  intro fuel1
  induction fuel1 with
  | zero =>
    intro fuel2 s h1 h2
    have : s = [] := List.length_eq_zero.1 (Nat.le_zero.1 h1)
    subst this
    simpa [trimLeftLoop] using hstop fuel2 (by simpa using h2)
  | succ fuel1 ih =>
    intro fuel2 s h1 h2
    cases s with
    | nil => simpa [trimLeftLoop] using hstop fuel2 (by simpa using h2)
    | cons b s =>
      cases fuel2 with
      | zero => simp at h2
      | succ fuel2 =>
        have hd := decodeRune_append_start (s := b :: s) (by simp) hcont z
        have hw1 := decodeRune_width_pos b s
        have hw2 := decodeRune_width_le (b :: s)
        simp only [List.cons_append] at hd ⊢
        simp only [trimLeftLoop, hd]
        split_ifs with hspace
        · have hdrop : List.drop (decodeRune (b :: s)).2 (b :: (s ++ c :: z)) =
              List.drop (decodeRune (b :: s)).2 (b :: s) ++ c :: z := by
            rw [← List.cons_append]
            exact List.drop_append_of_le_length hw2
          rw [hdrop]
          apply ih
          · simp only [List.length_drop, List.length_cons] at h1 hw2 ⊢; omega
          · simp only [List.length_append, List.length_drop, List.length_cons] at h2 hw2 ⊢; omega
        · rfl

/-- The string trimmed is a part of what `TrimSpace` leaves of the string followed by
zero bytes. -/
theorem TrimSpace_append_zeros (s : Str) (k : Nat) :
    TrimSpace s <:+: TrimSpace (s ++ List.replicate (k + 1) 0) := by
  have hleft : TrimLeftFunc (s ++ List.replicate (k + 1) 0) IsSpace =
      TrimLeftFunc s IsSpace ++ List.replicate (k + 1) 0 := by
    unfold TrimLeftFunc
    rw [List.replicate_succ]
    exact trimLeftLoop_append_ascii (by decide) (by decide) _ _ _ s (le_refl _) (le_refl _)
  have he : SolidEnd ((TrimLeftFunc s IsSpace ++ List.replicate k 0) ++ [0]) :=
    solidEnd_ascii _ (by decide) (by decide)
  obtain ⟨post1, hp, heq⟩ := trimRightLoop_keep he
    ((TrimLeftFunc s IsSpace ++ List.replicate k 0) ++ [0] ++ []).length [] (le_refl _)
  have hnil : post1 = [] := List.eq_nil_of_prefix_nil hp
  subst hnil
  have hright : TrimRightFunc (TrimLeftFunc s IsSpace ++ List.replicate (k + 1) 0) IsSpace =
      TrimLeftFunc s IsSpace ++ List.replicate (k + 1) 0 := by
    unfold TrimRightFunc
    rw [List.replicate_succ', ← List.append_assoc]
    simpa using heq
  unfold TrimSpace TrimFunc
  rw [hleft, hright]
  exact (TrimRightFunc_done IsSpace _).1.isInfix.trans ⟨[], List.replicate (k + 1) 0, by simp⟩


/-! ## Facts about the fixture's operations -/

theorem Sprint_single (s : Str) : Sprint [Value.str s] = s := by
  simp [Sprint, doPrint, Value.text]

theorem TT_Log_single (t : TT) (s : Str) :
    t.Log [Value.str s] = { t with log := t.log ++ [s] } := by
  simp [TT.Log, Sprint_single]

theorem Write_eq (f : Fixture) (p : Str) :
    f.Write p = ({ f with log := f.log ++ p }, p.length, none) := rfl

theorem reportFailure_eq (env : Env) (f : Fixture) (failure : Str) :
    f.reportFailure env failure = { f with log := f.log ++ env.NewFailureReport failure } := by
  simp [Fixture.reportFailure, Fixture.Print, Write_eq, Sprint_single]

theorem Finalize_none (f : Fixture) (trace : Str) :
    f.Finalize none trace =
      (if f.t.failed = true ∨ (f.verbose = true ∧ f.log ≠ []) then
        { f with t := { f.t with log := f.t.log ++ [ascii "\n" ++ TrimSpace f.log ++ ascii "\n"] } }
      else f, none) := by
  simp only [Fixture.Finalize, goRecover, TT.Failed, TT_Log_single]
  by_cases h : f.t.failed = true ∨ (f.verbose = true ∧ f.log ≠ [])
  · rw [if_pos h, if_pos]
    rcases h with h | ⟨h1, h2⟩
    · simp [h]
    · simp [h1, List.length_pos.2 h2]
  · rw [if_neg h, if_neg]
    push_neg at h
    obtain ⟨h1, h2⟩ := h
    simp only [Bool.not_eq_true] at h1
    by_cases hv : f.verbose = true
    · simp [h1, hv, h2 hv]
    · simp [h1, hv]

/-- A panic whose value is nil looks to `Finalize` like no panic: `recover()`
returns nil, and the panic is stopped all the same. -/
theorem Finalize_nil (f : Fixture) (trace : Str) :
    f.Finalize (some none) trace = f.Finalize none trace := rfl

theorem recover_eq (f : Fixture) (r : Value) (trace : Str) :
    f.recover r trace =
      { t := f.t.Fail
        log := f.log ++ (ascii "X PANIC: " ++ r.text ++ ascii "\n")
          ++ (TrimSpace (stackBuffer trace) ++ ascii "\n") ++ (panicWarning ++ ascii "\n")
        verbose := f.verbose } := by
  have h1 : ascii "X PANIC: " = ascii "X PANIC:" ++ [32] := by decide
  have h2 : ascii "\n" = [10] := by decide
  simp [Fixture.recover, Fixture.Println, Write_eq, Sprintln, doPrintln, Value.text, h1, h2]

theorem Op_run_eq (env : Env) (op : Op) (f : Fixture) :
    op.run env f =
      { t := if (op.failure env).isSome then f.t.Fail else f.t
        log := f.log ++ op.output env
        verbose := f.verbose } := by
  cases op with
  | So actual assert expected =>
    simp only [Op.run, Fixture.So, Op.failure, Op.output, reportFailure_eq]
    by_cases h : (assertionsSo actual assert expected).1 = true
    · simp [h]
    · simp [h]
  | Ok condition messages =>
    cases condition <;> simp [Op.run, Fixture.Ok, Op.failure, Op.output, reportFailure_eq]
  | Error args => simp [Op.run, Fixture.Error, Op.failure, Op.output, reportFailure_eq]
  | Errorf format args =>
    simp [Op.run, Fixture.Errorf, Op.failure, Op.output, reportFailure_eq]
  | Print a => simp [Op.run, Fixture.Print, Op.failure, Op.output, Write_eq]
  | Printf format a => simp [Op.run, Fixture.Printf, Op.failure, Op.output, Write_eq]
  | Println a => simp [Op.run, Fixture.Println, Op.failure, Op.output, Write_eq]
  | Write p => simp [Op.run, Op.failure, Op.output, Write_eq]
  | Failed => simp [Op.run, Op.failure, Op.output]

theorem runOps_eq (env : Env) (ops : List Op) (f : Fixture) :
    runOps env ops f =
      { t := if ∃ op ∈ ops, (op.failure env).isSome = true then f.t.Fail else f.t
        log := f.log ++ (ops.map (Op.output env)).flatten
        verbose := f.verbose } := by
  induction ops generalizing f with
  | nil => simp [runOps]
  | cons op ops ih =>
    have hstep : runOps env (op :: ops) f = runOps env ops (op.run env f) := rfl
    rw [hstep, ih, Op_run_eq]
    by_cases h1 : (op.failure env).isSome = true
    · by_cases h2 : ∃ o ∈ ops, (o.failure env).isSome = true
      · simp [h1, h2, TT.Fail]
      · simp [h1, h2, TT.Fail]
    · by_cases h2 : ∃ o ∈ ops, (o.failure env).isSome = true
      · simp [h1, h2]
      · simp [h1, h2]

theorem warning_ends : ∃ init, panicWarning = init ++ [41] :=
  ⟨ascii "* (Additional tests may have been skipped as a result of the panic shown above.",
    by decide⟩

/-- The block that `recover` prints, without its last newline, begins and ends with
a character that is not white space. -/
theorem panicBlock_solid (payload stack : Str) :
    SolidStart (ascii "X PANIC: " ++ payload ++ ascii "\n" ++ (stack ++ ascii "\n") ++ panicWarning) ∧
    SolidEnd (ascii "X PANIC: " ++ payload ++ ascii "\n" ++ (stack ++ ascii "\n") ++ panicWarning) := by
  obtain ⟨init, hw⟩ := warning_ends
  have h1 : ascii "X PANIC: " = 88 :: ascii " PANIC: " := by decide
  constructor
  · rw [h1]
    simp only [List.cons_append]
    exact solidStart_ascii _ (by decide) (by decide)
  · rw [hw, ← List.append_assoc]
    exact solidEnd_ascii _ (by decide) (by decide)


theorem Step_run_failed (env : Env) (step : Step) (f : Fixture) (h : f.t.failed = true) :
    (step.run env f).t.failed = true := by
  cases step with
  | op o =>
    simp only [Step.run, Op_run_eq]
    split_ifs <;> simp [TT.Fail, h]
  | finalize panicking trace =>
    rcases panicking with _ | _ | r
    · simp only [Step.run, Finalize_none]
      split_ifs <;> simp [h]
    · simp only [Step.run, Finalize_nil, Finalize_none]
      split_ifs <;> simp [h]
    · simp [Step.run, Fixture.Finalize, goRecover, TT.Failed, TT_Log_single, recover_eq, TT.Fail]

theorem Step_run_log (env : Env) (step : Step) (f : Fixture) :
    f.log <+: (step.run env f).log := by
  cases step with
  | op o =>
    simp only [Step.run, Op_run_eq]
    exact List.prefix_append _ _
  | finalize panicking trace =>
    rcases panicking with _ | _ | r
    · simp only [Step.run, Finalize_none]
      split_ifs <;> exact List.prefix_refl _
    · simp only [Step.run, Finalize_nil, Finalize_none]
      split_ifs <;> exact List.prefix_refl _
    · simp only [Step.run, Fixture.Finalize, goRecover, TT.Failed, TT_Log_single, recover_eq,
        TT.Fail, Bool.true_or, if_true, List.append_assoc]
      exact List.prefix_append _ _

theorem doPrint_strings (strs : List Str) :
    ∀ (argNum : Nat) (prevString : Bool),
      doPrint argNum prevString (strs.map Value.str) = strs.flatten := by
  induction strs with
  | nil => intro _ _; rfl
  | cons s strs ih =>
    intro argNum prevString
    simp [doPrint, Value.isString, Value.text, ih]

theorem doPrintf_strings (strs : List Str) :
    doPrintf (List.replicate strs.length (ascii "%s")).flatten (strs.map Value.str) =
      some strs.flatten := by
  induction strs with
  | nil => rfl
  | cons s strs ih =>
    have h : ascii "%s" = [37, 115] := by decide
    rw [h] at ih
    simp only [h, List.length_cons, List.replicate_succ, List.flatten_cons, List.map_cons,
      List.cons_append, List.nil_append]
    simp [doPrintf, ih]

/-- Along a sequence of fail flags in which a set flag stays set, the flag is never
unset, and it is set once exactly when the sequence begins unset and ends set. -/
theorem failMarks_chain (l : List Bool) (h : l.Chain' (fun a b => a = true → b = true)) :
    failUnmarks l = 0 ∧
    failMarks l + (if l.head? = some true then 1 else 0) =
      (if l.getLast? = some true then 1 else 0) := by
  induction l with
  | nil => simp [failMarks, failUnmarks]
  | cons a l ih =>
    cases l with
    | nil => cases a <;> simp [failMarks, failUnmarks]
    | cons b rest =>
      have hc := List.chain'_cons.1 h
      obtain ⟨ih1, ih2⟩ := ih hc.2
      have hlast : (a :: b :: rest).getLast? = (b :: rest).getLast? := by
        simp [List.getLast?_cons_cons]
      rw [hlast, ← ih2]
      cases a <;> cases b
      · simpa [failMarks, failUnmarks] using ih1
      · simp only [failMarks, failUnmarks, List.head?_cons]
        simpa using ih1
      · simp at hc
      · simpa [failMarks, failUnmarks] using ih1

theorem caseFlags_spec (env : Env) (trace : Str) (ops : List Op) :
    ∀ f : Fixture,
      (caseFlags env trace ops f).Chain' (fun a b => a = true → b = true) ∧
      (caseFlags env trace ops f).head? = some f.t.failed ∧
      (caseFlags env trace ops f).getLast? =
        some ((runOps env ops f).Finalize none trace).1.t.failed := by
  induction ops with
  | nil =>
    intro f
    refine ⟨?_, rfl, rfl⟩
    simp only [caseFlags, List.chain'_cons, List.chain'_singleton, and_true]
    exact Step_run_failed env (Step.finalize none trace) f
  | cons op ops ih =>
    intro f
    obtain ⟨h1, h2, h3⟩ := ih (op.run env f)
    have hne : caseFlags env trace ops (op.run env f) ≠ [] := by
      intro h
      rw [h] at h2
      simp at h2
    obtain ⟨b, l, hbl⟩ := List.exists_cons_of_ne_nil hne
    refine ⟨?_, rfl, ?_⟩
    · simp only [caseFlags]
      rw [hbl] at h1 h2 ⊢
      simp only [List.head?_cons, Option.some.injEq] at h2
      refine List.chain'_cons.2 ⟨?_, h1⟩
      rw [h2]
      exact Step_run_failed env (Step.op op) f
    · simp only [caseFlags]
      rw [hbl, List.getLast?_cons_cons, ← hbl]
      exact h3

theorem stackBuffer_short (trace : Str) (h : trace.length ≤ 16384) :
    stackBuffer trace = trace ++ List.replicate (16384 - trace.length) 0 := by
  simp only [stackBuffer, runtimeStack, List.length_replicate, Nat.reduceMul]
  rw [Nat.min_eq_right h, List.take_of_length_le (le_refl _), List.drop_replicate]

theorem stackBuffer_long (trace : Str) (h : 16384 ≤ trace.length) :
    stackBuffer trace = trace.take 16384 := by
  simp only [stackBuffer, runtimeStack, List.length_replicate, Nat.reduceMul]
  rw [Nat.min_eq_left h, List.drop_replicate]
  simp

/-- The text that `recover` prints for a stack trace shorter than its buffer keeps
the zero bytes that fill the buffer: it ends with one. -/
theorem stackText_short (trace : Str) (h : trace.length < 16384) :
    ∃ init, TrimSpace (stackBuffer trace) = init ++ [0] := by
  rw [stackBuffer_short trace (Nat.le_of_lt h)]
  obtain ⟨k, hk⟩ : ∃ k, 16384 - trace.length = k + 1 := ⟨16384 - trace.length - 1, by omega⟩
  rw [hk, List.replicate_succ', ← List.append_assoc]
  have hs : SolidStart [0] := solidStart_ascii [] (by decide) (by decide)
  have he : SolidEnd ([] ++ [0]) := solidEnd_ascii [] (by decide) (by decide)
  obtain ⟨pre1, post1, -, hp, heq⟩ := TrimSpace_keep hs he (trace ++ List.replicate k 0) []
  have hnil : post1 = [] := List.eq_nil_of_prefix_nil hp
  subst hnil
  exact ⟨pre1, by simpa using heq⟩

/-- The stack trace, cut to the size of the buffer and trimmed of white space, is a
part of the text that `recover` prints for it. -/
theorem stackText_contains_cut (trace : Str) :
    TrimSpace (trace.take 16384) <:+: TrimSpace (stackBuffer trace) := by
  rcases Nat.lt_or_ge trace.length 16384 with h | h
  · rw [stackBuffer_short trace (Nat.le_of_lt h), List.take_of_length_le (Nat.le_of_lt h)]
    obtain ⟨k, hk⟩ : ∃ k, 16384 - trace.length = k + 1 := ⟨16384 - trace.length - 1, by omega⟩
    rw [hk]
    exact TrimSpace_append_zeros trace k
  · rw [stackBuffer_long trace h]

/-- A stack trace shorter than the buffer that begins with a well-formed character
that is not white space is a part of the text that `recover` prints for it. -/
theorem stackText_contains_short (trace : Str) (h : trace.length < 16384)
    (hs : SolidStart trace) : trace <:+: TrimSpace (stackBuffer trace) := by
  rw [stackBuffer_short trace (Nat.le_of_lt h)]
  obtain ⟨k, hk⟩ : ∃ k, 16384 - trace.length = k + 1 := ⟨16384 - trace.length - 1, by omega⟩
  rw [hk, List.replicate_succ', ← List.append_assoc]
  have hs2 : SolidStart (trace ++ List.replicate k 0 ++ [0]) :=
    solidStart_append (solidStart_append hs _) _
  have he2 : SolidEnd (trace ++ List.replicate k 0 ++ [0]) :=
    solidEnd_ascii _ (by decide) (by decide)
  rw [TrimSpace_solid hs2 he2]
  exact ⟨[], List.replicate k 0 ++ [0], by simp⟩

theorem Op_passes_failure (env : Env) (op : Op) (h : op.passes = true) :
    op.failure env = none := by
  cases op <;> simp_all [Op.passes, Op.failure]

theorem sampleEnv_formats : sampleEnv.FormatsLikeFmt := by
  intro format a out h
  simp [sampleEnv, h]

/-! ## The claims -/

/-- C1: `Finalize` without a pending panic appends exactly one record to the
runner's log, the buffer trimmed of white space between two newlines, if and only
if the runner is marked failed or the fixture is verbose with a non-empty buffer;
otherwise it appends nothing.  A failed runner with an empty buffer gets the
record of two newlines. -/
theorem finalize_flushes_iff (f : Fixture) (trace : Str) :
    ((f.Finalize none trace).1.t.log =
        f.t.log ++ [ascii "\n" ++ TrimSpace f.log ++ ascii "\n"] ↔
      (f.t.failed = true ∨ (f.verbose = true ∧ f.log ≠ []))) ∧
    ((f.Finalize none trace).1.t.log = f.t.log ↔
      ¬ (f.t.failed = true ∨ (f.verbose = true ∧ f.log ≠ []))) ∧
    ((f.t.failed = true ∧ f.log = []) →
      (f.Finalize none trace).1.t.log = f.t.log ++ [ascii "\n\n"]) := by
  rw [Finalize_none]
  by_cases h : f.t.failed = true ∨ (f.verbose = true ∧ f.log ≠ [])
  · rw [if_pos h]
    refine ⟨⟨fun _ => h, fun _ => rfl⟩, ⟨fun h1 => ?_, fun h1 => absurd h h1⟩, ?_⟩
    · have := congrArg List.length h1
      simp at this
    · rintro ⟨-, h2⟩
      rw [h2, TrimSpace_nil]
      rfl
  · rw [if_neg h]
    refine ⟨⟨fun h1 => ?_, fun h1 => absurd h1 h⟩, ⟨fun _ => h, fun _ => rfl⟩, ?_⟩
    · have := congrArg List.length h1
      simp at this
    · rintro ⟨h1, -⟩
      exact absurd (Or.inl h1) h

/-- C2 (as stated, refuted): a test body that panics with the nil value, on a fresh
fixture.  `Finalize` stops the panic, but `recover()` returns nil and the guard
`r != nil` skips the report: nothing is appended to the buffer, the runner is not
marked failed and nothing is logged. -/
theorem nil_panic_goes_unreported :
    ((NewFixture freshT false).Finalize (some none) (ascii "goroutine 1 [running]:\n")).2
      = none ∧
    ((NewFixture freshT false).Finalize (some none) (ascii "goroutine 1 [running]:\n")).1.log
      = [] ∧
    ((NewFixture freshT false).Finalize (some none)
      (ascii "goroutine 1 [running]:\n")).1.t.failed = false ∧
    ((NewFixture freshT false).Finalize (some none) (ascii "goroutine 1 [running]:\n")).1.t.log
      = [] :=
  ⟨rfl, rfl, rfl, rfl⟩

/-- C2 (amended): `Finalize`, run while the test body unwinds with a payload `r` that
is not nil, stops the panic; it appends to the buffer the line `X PANIC: ` with the
printed payload, the captured stack trace and the warning, in this order; it marks
the runner failed; and it logs exactly one record, which contains the panic line,
the captured stack text and the warning.  The record contains the stack trace cut
to 16 KiB without its leading and trailing white space, and the whole trace when it
is shorter than 16 KiB and begins with a well-formed character that is not white
space.  With the nil payload `Finalize` stops the panic and goes on as without a
panic. -/
theorem finalize_recovers_panic (f : Fixture) (r : Value) (trace : Str) :
    (f.Finalize (some (some r)) trace).2 = none ∧
    (f.Finalize (some (some r)) trace).1.log =
      f.log ++ (ascii "X PANIC: " ++ r.text ++ ascii "\n")
        ++ (TrimSpace (stackBuffer trace) ++ ascii "\n") ++ (panicWarning ++ ascii "\n") ∧
    (f.Finalize (some (some r)) trace).1.t.failed = true ∧
    ((f.Finalize (some none) trace).2 = none ∧
      (f.Finalize (some none) trace).1 = (f.Finalize none trace).1) ∧
    ∃ record, (f.Finalize (some (some r)) trace).1.t.log = f.t.log ++ [record] ∧
      record = ascii "\n" ++ TrimSpace (f.Finalize (some (some r)) trace).1.log ++ ascii "\n" ∧
      (ascii "X PANIC: " ++ r.text ++ ascii "\n" ++ (TrimSpace (stackBuffer trace) ++ ascii "\n")
        ++ panicWarning) <:+: record ∧
      (ascii "X PANIC: " ++ r.text) <:+: record ∧
      TrimSpace (stackBuffer trace) <:+: record ∧
      TrimSpace (trace.take 16384) <:+: record ∧
      (trace.length < 16384 → SolidStart trace → trace <:+: record) ∧
      panicWarning <:+: record := by
  have hfin : f.Finalize (some (some r)) trace =
      ({ f.recover r trace with
          t := { (f.recover r trace).t with
            log := f.t.log ++ [ascii "\n" ++ TrimSpace (f.recover r trace).log ++ ascii "\n"] } },
        none) := by
    simp [Fixture.Finalize, goRecover, TT.Failed, TT_Log_single, recover_eq, TT.Fail]
  obtain ⟨hs, he⟩ := panicBlock_solid r.text (TrimSpace (stackBuffer trace))
  have hin := TrimSpace_contains hs he f.log (ascii "\n")
  have hlog : (f.recover r trace).log =
      f.log ++ (ascii "X PANIC: " ++ r.text ++ ascii "\n" ++
        (TrimSpace (stackBuffer trace) ++ ascii "\n") ++ panicWarning) ++ ascii "\n" := by
    rw [recover_eq]
    simp only [List.append_assoc]
  rw [← hlog] at hin
  have hblock : (ascii "X PANIC: " ++ r.text ++ ascii "\n" ++
      (TrimSpace (stackBuffer trace) ++ ascii "\n") ++ panicWarning) <:+:
      (ascii "\n" ++ TrimSpace (f.recover r trace).log ++ ascii "\n") :=
    hin.trans ⟨ascii "\n", ascii "\n", rfl⟩
  have hstack : TrimSpace (stackBuffer trace) <:+:
      (ascii "\n" ++ TrimSpace (f.recover r trace).log ++ ascii "\n") := by
    refine List.IsInfix.trans ?_ hblock
    exact ⟨ascii "X PANIC: " ++ r.text ++ ascii "\n", ascii "\n" ++ panicWarning, by
      simp only [List.append_assoc]⟩
  have hnil : (f.Finalize (some none) trace).2 = none ∧
      (f.Finalize (some none) trace).1 = (f.Finalize none trace).1 := by
    rw [Finalize_nil, Finalize_none]
    exact ⟨rfl, rfl⟩
  rw [hfin]
  refine ⟨rfl, ?_, ?_, hnil, _, rfl, rfl, hblock, ?_, hstack, ?_, ?_, ?_⟩
  · simp only [recover_eq]
  · simp [recover_eq, TT.Fail]
  · refine List.IsInfix.trans ?_ hblock
    exact ⟨[], ascii "\n" ++ (TrimSpace (stackBuffer trace) ++ ascii "\n") ++ panicWarning, by
      simp only [List.nil_append, List.append_assoc]⟩
  · exact (stackText_contains_cut trace).trans hstack
  · intro hlen hsolid
    exact (stackText_contains_short trace hlen hsolid).trans hstack
  · refine List.IsInfix.trans ?_ hblock
    exact ⟨ascii "X PANIC: " ++ r.text ++ ascii "\n" ++ (TrimSpace (stackBuffer trace) ++ ascii "\n"),
      [], by simp only [List.append_nil]⟩

/-- C2, at a concrete input: the panic `GOPHERS!` with a stack trace of 23 bytes, on
a fresh fixture.  The runner is marked failed and the one record logged contains
the panic line, the whole trace and the warning. -/
theorem finalize_recovers_panic_witness :
    (ascii "goroutine 1 [running]:\n").length < 16384 ∧
    SolidStart (ascii "goroutine 1 [running]:\n") ∧
    ((NewFixture freshT false).Finalize (some (some (Value.str (ascii "GOPHERS!"))))
      (ascii "goroutine 1 [running]:\n")).2 = none ∧
    ((NewFixture freshT false).Finalize (some (some (Value.str (ascii "GOPHERS!"))))
      (ascii "goroutine 1 [running]:\n")).1.t.failed = true ∧
    ∃ record,
      ((NewFixture freshT false).Finalize (some (some (Value.str (ascii "GOPHERS!"))))
        (ascii "goroutine 1 [running]:\n")).1.t.log = [record] ∧
      ascii "X PANIC: GOPHERS!" <:+: record ∧
      ascii "goroutine 1 [running]:\n" <:+: record ∧
      panicWarning <:+: record := by
  have hlen : (ascii "goroutine 1 [running]:\n").length < 16384 := by decide
  have hsolid : SolidStart (ascii "goroutine 1 [running]:\n") := by decide
  obtain ⟨h1, -, h3, -, record, hrec, -, -, hline, -, -, htrace, hwarn⟩ :=
    finalize_recovers_panic (NewFixture freshT false) (Value.str (ascii "GOPHERS!"))
      (ascii "goroutine 1 [running]:\n")
  exact ⟨hlen, hsolid, h1, h3, record, hrec, hline, htrace hlen hsolid, hwarn⟩

/-- C5: `So` returns true exactly when the comparison's failure text is empty; then
the fixture is unchanged; when it returns false the runner is marked failed and the
failure report of that text is appended to the buffer. -/
theorem so_reports (env : Env) (f : Fixture) (actual : Value)
    (assert : Value → List Value → Str) (expected : List Value) :
    ((f.So env actual assert expected).2 = true ↔ assert actual expected = []) ∧
    ((f.So env actual assert expected).2 = true → (f.So env actual assert expected).1 = f) ∧
    ((f.So env actual assert expected).2 = false →
      (f.So env actual assert expected).1.t.failed = true ∧
      (f.So env actual assert expected).1.log =
        f.log ++ env.NewFailureReport (assert actual expected) ∧
      (f.So env actual assert expected).1.t.log = f.t.log ∧
      (f.So env actual assert expected).1.verbose = f.verbose) := by
  by_cases h : assert actual expected = []
  · simp [Fixture.So, assertionsSo, h]
  · simp [Fixture.So, assertionsSo, h, reportFailure_eq, TT.Fail]

/-- C6: `Ok` on a true condition changes nothing; on a false condition it marks the
runner failed and appends the failure report of the default message when no message
is given, and of the messages joined with a comma and a space otherwise. -/
theorem ok_reports (env : Env) (f : Fixture) (messages : List Str) :
    f.Ok env true messages = f ∧
    (f.Ok env false []).t.failed = true ∧
    (f.Ok env false []).log = f.log ++ env.NewFailureReport
      (ascii "Expected condition to be true, was false instead.") ∧
    (messages ≠ [] →
      (f.Ok env false messages).t.failed = true ∧
      (f.Ok env false messages).log =
        f.log ++ env.NewFailureReport (Join messages (ascii ", "))) ∧
    (f.Ok env false messages).t.log = f.t.log ∧
    (f.Ok env false messages).verbose = f.verbose := by
  refine ⟨by simp [Fixture.Ok], by simp [Fixture.Ok, reportFailure_eq, TT.Fail], ?_, ?_, ?_, ?_⟩
  · simp [Fixture.Ok, reportFailure_eq, Join, okDefaultMessage]
  · intro h
    simp [Fixture.Ok, reportFailure_eq, TT.Fail, h]
  · simp [Fixture.Ok, reportFailure_eq, TT.Fail]
  · simp [Fixture.Ok, reportFailure_eq, TT.Fail]

/-- C3 (as stated, refuted): the test case `Error("x ")` on a fresh runner issues a
failure report whose text is `x ` and whose report contains that text, yet the one
record that `Finalize` logs does not contain it: the trailing blank is trimmed. -/
theorem failure_text_trimmed_away :
    freshT.failed = false ∧
    Op.failure sampleEnv (Op.Error [Value.str (ascii "x ")]) = some (ascii "x ") ∧
    ascii "x " <:+: sampleEnv.NewFailureReport (ascii "x ") ∧
    (runCase sampleEnv freshT false [Op.Error [Value.str (ascii "x ")]] none []).1.t.log =
      [ascii "\nFailure: x\n"] ∧
    ¬ (ascii "x " <:+: ascii "\nFailure: x\n") := by
  decide

/-- C3 (amended): after a body in which at least one failure report is issued, on a
runner that was not failed, `Finalize` without a panic leaves the runner failed, the
fail flag having been set exactly once and never unset, and logs exactly one record:
the buffer trimmed of white space between two newlines.  The record contains the
text of every failure report issued whose text is empty or begins and ends with a
well-formed character that is not white space, given that the report built for it
contains it. -/
theorem failure_logged_once (env : Env) (t : TT) (verbose : Bool) (ops : List Op)
    (trace : Str) (ht : t.failed = false)
    (hfail : ∃ op ∈ ops, (op.failure env).isSome = true) :
    (runCase env t verbose ops none trace).1.t.failed = true ∧
    failMarks (caseFlags env trace ops (NewFixture t verbose)) = 1 ∧
    failUnmarks (caseFlags env trace ops (NewFixture t verbose)) = 0 ∧
    ∃ record, (runCase env t verbose ops none trace).1.t.log = t.log ++ [record] ∧
      record = ascii "\n" ++ TrimSpace (runOps env ops (NewFixture t verbose)).log ++ ascii "\n" ∧
      ∀ op ∈ ops, ∀ text, op.failure env = some text →
        text <:+: env.NewFailureReport text → (text ≠ [] → SolidStart text ∧ SolidEnd text) →
        text <:+: record := by
  have hrun := runOps_eq env ops (NewFixture t verbose)
  rw [if_pos hfail] at hrun
  have hfin : runCase env t verbose ops none trace =
      ({ runOps env ops (NewFixture t verbose) with
          t := { log := t.log ++
                  [ascii "\n" ++ TrimSpace (runOps env ops (NewFixture t verbose)).log ++ ascii "\n"]
                 failed := true } }, none) := by
    rw [runCase, Finalize_none, if_pos (Or.inl (by rw [hrun]; rfl))]
    rw [hrun]
    rfl
  obtain ⟨hchain, hhead, hlast⟩ := caseFlags_spec env trace ops (NewFixture t verbose)
  obtain ⟨hun, hmk⟩ := failMarks_chain _ hchain
  have hlast2 : (caseFlags env trace ops (NewFixture t verbose)).getLast? = some true := by
    rw [hlast]
    have := congrArg (fun x => x.1.t.failed) hfin
    simp only [runCase] at this
    rw [this]
  have hhead2 : (caseFlags env trace ops (NewFixture t verbose)).head? = some false := by
    rw [hhead]
    simp [NewFixture, ht]
  rw [hlast2, hhead2] at hmk
  refine ⟨by rw [hfin], by simpa using hmk, hun, _, by rw [hfin], rfl, ?_⟩
  intro op hop text htext hrep hsolid
  rcases eq_or_ne text [] with rfl | hne
  · exact List.nil_infix
  obtain ⟨hs, he⟩ := hsolid hne
  obtain ⟨a, b, hab⟩ := hrep
  obtain ⟨l1, l2, hl⟩ := List.append_of_mem hop
  have hout : op.output env = env.NewFailureReport text := by
    cases op <;> simp_all [Op.output, Op.failure]
  have hlog : (runOps env ops (NewFixture t verbose)).log =
      ((l1.map (Op.output env)).flatten ++ a) ++ text ++ (b ++ (l2.map (Op.output env)).flatten) := by
    rw [hrun, hl]
    simp only [NewFixture, List.nil_append, List.map_append, List.map_cons, List.flatten_append,
      List.flatten_cons, hout, ← hab, List.append_assoc]
  rw [hlog]
  exact (TrimSpace_contains hs he _ _).trans ⟨ascii "\n", ascii "\n", rfl⟩

/-- C3, at a concrete input: the test case `Error("1", "2", "3")`. -/
theorem failure_logged_once_witness :
    (runCase sampleEnv freshT false
      [Op.Error [Value.str (ascii "1"), Value.str (ascii "2"), Value.str (ascii "3")]]
      none []).1.t.failed = true ∧
    failMarks (caseFlags sampleEnv []
      [Op.Error [Value.str (ascii "1"), Value.str (ascii "2"), Value.str (ascii "3")]]
      (NewFixture freshT false)) = 1 ∧
    failUnmarks (caseFlags sampleEnv []
      [Op.Error [Value.str (ascii "1"), Value.str (ascii "2"), Value.str (ascii "3")]]
      (NewFixture freshT false)) = 0 ∧
    ∃ record, (runCase sampleEnv freshT false
        [Op.Error [Value.str (ascii "1"), Value.str (ascii "2"), Value.str (ascii "3")]]
        none []).1.t.log = freshT.log ++ [record] ∧
      record = ascii "\n" ++ TrimSpace (runOps sampleEnv
        [Op.Error [Value.str (ascii "1"), Value.str (ascii "2"), Value.str (ascii "3")]]
        (NewFixture freshT false)).log ++ ascii "\n" ∧
      ∀ op ∈ [Op.Error [Value.str (ascii "1"), Value.str (ascii "2"), Value.str (ascii "3")]],
        ∀ text, op.failure sampleEnv = some text →
        text <:+: sampleEnv.NewFailureReport text →
        (text ≠ [] → SolidStart text ∧ SolidEnd text) → text <:+: record :=
  failure_logged_once sampleEnv freshT false
    [Op.Error [Value.str (ascii "1"), Value.str (ascii "2"), Value.str (ascii "3")]] []
    rfl ⟨_, List.mem_singleton.2 rfl, rfl⟩

/-- C4: after a body of operations that report no failure, on a fixture that is not
verbose and a runner that is not failed, `Finalize` without a panic leaves the
runner not failed and logs nothing, whatever the body wrote to the buffer. -/
theorem passing_case_is_silent (env : Env) (t : TT) (ops : List Op) (trace : Str)
    (ht : t.failed = false) (hops : ∀ op ∈ ops, op.passes = true) :
    (runCase env t false ops none trace).1.t.failed = false ∧
    (runCase env t false ops none trace).1.t.log = t.log ∧
    (t.log = [] → (runCase env t false ops none trace).1.t.log = []) := by
  have hrun := runOps_eq env ops (NewFixture t false)
  have hno : ¬ ∃ op ∈ ops, (op.failure env).isSome = true := by
    rintro ⟨op, hop, hsome⟩
    rw [Op_passes_failure env op (hops op hop)] at hsome
    exact Bool.noConfusion hsome
  rw [if_neg hno] at hrun
  have hfin : runCase env t false ops none trace = (runOps env ops (NewFixture t false), none) := by
    rw [runCase, Finalize_none, if_neg]
    rw [hrun]
    simp [NewFixture, ht]
  rw [hfin, hrun]
  exact ⟨ht, rfl, fun h => h⟩

/-- C4, at a concrete input: a body that prints, checks a true condition and asks
for the fail state. -/
theorem passing_case_is_silent_witness :
    (runCase sampleEnv freshT false
      [Op.Print [Value.str (ascii "Print")], Op.Ok true [], Op.Failed] none []).1.t.failed = false ∧
    (runCase sampleEnv freshT false
      [Op.Print [Value.str (ascii "Print")], Op.Ok true [], Op.Failed] none []).1.t.log = freshT.log ∧
    (freshT.log = [] → (runCase sampleEnv freshT false
      [Op.Print [Value.str (ascii "Print")], Op.Ok true [], Op.Failed] none []).1.t.log = []) :=
  passing_case_is_silent sampleEnv freshT
    [Op.Print [Value.str (ascii "Print")], Op.Ok true [], Op.Failed] [] rfl (by decide)

/-- C7: `Error` on string operands marks the runner failed, so that `Failed` is true
afterwards, and appends the failure report of their concatenation without
separators; `Errorf` with as many `%s` verbs as operands does the same. -/
theorem error_concatenates (env : Env) (f : Fixture) (strs : List Str)
    (henv : env.FormatsLikeFmt) :
    (f.Error env (strs.map Value.str)).t.failed = true ∧
    (f.Error env (strs.map Value.str)).Failed = true ∧
    (f.Error env (strs.map Value.str)).log = f.log ++ env.NewFailureReport strs.flatten ∧
    f.Errorf env (List.replicate strs.length (ascii "%s")).flatten (strs.map Value.str) =
      f.Error env (strs.map Value.str) := by
  have h1 : Sprint (strs.map Value.str) = strs.flatten := doPrint_strings strs 0 false
  have h2 := henv _ _ _ (doPrintf_strings strs)
  simp [Fixture.Error, Fixture.Errorf, Fixture.Failed, TT.Failed, reportFailure_eq, TT.Fail, h1, h2]

/-- C7, at a concrete input: `Error("1", "2", "3")` and `Errorf("%s%s%s", ...)`. -/
theorem error_concatenates_witness :
    sampleEnv.FormatsLikeFmt ∧
    ((NewFixture freshT false).Error sampleEnv
      ([ascii "1", ascii "2", ascii "3"].map Value.str)).t.failed = true ∧
    ((NewFixture freshT false).Error sampleEnv
      ([ascii "1", ascii "2", ascii "3"].map Value.str)).Failed = true ∧
    ((NewFixture freshT false).Error sampleEnv
      ([ascii "1", ascii "2", ascii "3"].map Value.str)).log =
        (NewFixture freshT false).log ++
          sampleEnv.NewFailureReport [ascii "1", ascii "2", ascii "3"].flatten ∧
    (NewFixture freshT false).Errorf sampleEnv
      (List.replicate [ascii "1", ascii "2", ascii "3"].length (ascii "%s")).flatten
      ([ascii "1", ascii "2", ascii "3"].map Value.str) =
      (NewFixture freshT false).Error sampleEnv ([ascii "1", ascii "2", ascii "3"].map Value.str) :=
  ⟨sampleEnv_formats,
    error_concatenates sampleEnv (NewFixture freshT false) [ascii "1", ascii "2", ascii "3"]
      sampleEnv_formats⟩

/-- C8: the fail state is monotonic: a runner marked failed before a step of a test
case (an operation of the body, or `Finalize` with or without a panic) is marked
failed after it, hence after any sequence of steps, and after any number of calls
of `Error`. -/
theorem fail_state_monotonic (env : Env) (f : Fixture) (h : f.t.failed = true) :
    (∀ step : Step, (step.run env f).t.failed = true) ∧
    (∀ steps : List Step, (steps.foldl (fun g step => step.run env g) f).t.failed = true) ∧
    (∀ (n : Nat) (args : List Value),
      (runOps env (List.replicate n (Op.Error args)) f).t.failed = true) := by
  have hsteps : ∀ (steps : List Step) (g : Fixture), g.t.failed = true →
      (steps.foldl (fun g step => step.run env g) g).t.failed = true := by
    intro steps
    induction steps with
    | nil => intro g hg; exact hg
    | cons step steps ih =>
      intro g hg
      exact ih _ (Step_run_failed env step g hg)
  refine ⟨fun step => Step_run_failed env step f h, fun steps => hsteps steps f h, ?_⟩
  intro n args
  rw [runOps_eq]
  split_ifs <;> simp [TT.Fail, h]

/-- C8, at a concrete input: a failed runner, `Error("HI")` and `Finalize`. -/
theorem fail_state_monotonic_witness :
    (NewFixture failedT false).t.failed = true ∧
    (∀ step : Step, (step.run sampleEnv (NewFixture failedT false)).t.failed = true) ∧
    (∀ steps : List Step,
      (steps.foldl (fun g step => step.run sampleEnv g) (NewFixture failedT false)).t.failed
        = true) ∧
    (∀ (n : Nat) (args : List Value),
      (runOps sampleEnv (List.replicate n (Op.Error args)) (NewFixture failedT false)).t.failed
        = true) :=
  ⟨rfl, fail_state_monotonic sampleEnv (NewFixture failedT false) rfl⟩

/-- C9: the buffer is append-only: its contents before a step of a test case are
the beginning of its contents after it; `Print`, `Printf`, `Println` and `Write`
append exactly their text, report no error and leave the runner as it is; and
`Finalize` without a panic leaves the buffer as it is. -/
theorem buffer_append_only (env : Env) (f : Fixture) (step : Step) (a : List Value)
    (format p trace : Str) :
    f.log <+: (step.run env f).log ∧
    ((f.Print a).1.log = f.log ++ Sprint a ∧ (f.Print a).2.2 = none ∧
      (f.Print a).1.t = f.t) ∧
    ((f.Printf env format a).1.log = f.log ++ env.Sprintf format a ∧
      (f.Printf env format a).2.2 = none ∧ (f.Printf env format a).1.t = f.t) ∧
    ((f.Println a).1.log = f.log ++ Sprintln a ∧ (f.Println a).2.2 = none ∧
      (f.Println a).1.t = f.t) ∧
    ((f.Write p).1.log = f.log ++ p ∧ (f.Write p).2 = (p.length, none) ∧
      (f.Write p).1.t = f.t) ∧
    (f.Finalize none trace).1.log = f.log := by
  refine ⟨Step_run_log env step f, ⟨rfl, rfl, rfl⟩, ⟨rfl, rfl, rfl⟩, ⟨rfl, rfl, rfl⟩,
    ⟨rfl, rfl, rfl⟩, ?_⟩
  rw [Finalize_none]
  split_ifs <;> rfl

/-- C10 (the code at a failing input): for the stack trace `goroutine 1 [running]:`
and a newline, 23 bytes, `recover` appends between the panic line and the warning
the trace with its trailing newline, followed by the 16361 zero bytes that fill the
buffer, and a newline; the trace cut to 16 KiB and trimmed is the 22 bytes
`goroutine 1 [running]:`. -/
theorem recover_keeps_buffer_padding :
    (Fixture.recover (NewFixture freshT false) (Value.str (ascii "boom"))
        (ascii "goroutine 1 [running]:\n")).log =
      ascii "X PANIC: boom\n"
        ++ (ascii "goroutine 1 [running]:\n" ++ List.replicate 16361 0 ++ ascii "\n")
        ++ (panicWarning ++ ascii "\n") ∧
    TrimSpace ((ascii "goroutine 1 [running]:\n").take 16384) = ascii "goroutine 1 [running]:" := by
  constructor
  · have hlen : (ascii "goroutine 1 [running]:\n").length = 23 := by decide
    have hbuf : stackBuffer (ascii "goroutine 1 [running]:\n") =
        ascii "goroutine 1 [running]:\n" ++ List.replicate 16361 0 := by
      rw [stackBuffer_short _ (by rw [hlen]; decide), hlen]
    have hhead : ascii "goroutine 1 [running]:\n" = 103 :: ascii "oroutine 1 [running]:\n" := by
      decide
    have hs : SolidStart (ascii "goroutine 1 [running]:\n" ++ List.replicate 16361 0) := by
      rw [hhead]
      exact solidStart_ascii _ (by decide) (by decide)
    have he : SolidEnd (ascii "goroutine 1 [running]:\n" ++ List.replicate 16361 0) := by
      rw [show (16361 : Nat) = 16360 + 1 from rfl, List.replicate_succ', ← List.append_assoc]
      exact solidEnd_ascii _ (by decide) (by decide)
    rw [recover_eq, hbuf, TrimSpace_solid hs he]
    have h1 : ascii "X PANIC: boom\n" = ascii "X PANIC: " ++ ascii "boom" ++ ascii "\n" := by decide
    rw [h1]
    rfl
  · decide

end Gunit
